import Mathlib

/-!
# Verification of the CodeQL tool source resolution & acquisition engine

Shallow embedding of `setup-codeql.js`: the version normalizer, the candidate
source enumerator, the release asset locator, the tool source resolver and the
download/extract/cache pipeline.  Pure computations are translated directly;
I/O boundaries (toolcache queries, API calls, downloads) are represented by
explicit oracle fields in an environment record, so every function here is an
executable Lean definition.

Strings are modelled as Lean `String`s (lists of characters), with the
JavaScript regular-expression and string operations used by the source spelled
out on `List Char`.  A JavaScript `.` in a regex matches every character except
the four line terminators, which the model tracks explicitly.
-/

namespace SetupCodeQL

/-! ## JavaScript string primitives -/

/-- The four characters a JavaScript regex `.` does not match:
LF, CR, LINE SEPARATOR and PARAGRAPH SEPARATOR. -/
def lineTerm (c : Char) : Bool :=
  c = '\n' || c = '\r' || c = '\u2028' || c = '\u2029'

/-- Prefix test on character lists (used for all literal-prefix matching). -/
def strHasPre (p l : List Char) : Bool :=
  match p, l with
  | [], _ => true
  | _ :: _, [] => false
  | a :: ps, b :: ls => a = b && strHasPre ps ls

theorem strHasPre_iff (p : List Char) : ∀ l, strHasPre p l = true ↔ ∃ t, l = p ++ t := by
  induction p with
  | nil => intro l; simp [strHasPre]
  | cons a ps ih =>
    intro l
    cases l with
    | nil => simp [strHasPre]
    | cons b ls =>
      simp only [strHasPre, Bool.and_eq_true, decide_eq_true_eq, ih ls, List.cons_append,
        List.cons.injEq]
      constructor
      · rintro ⟨rfl, t, rfl⟩; exact ⟨t, rfl, rfl⟩
      · rintro ⟨t, rfl, rfl⟩; exact ⟨rfl, t, rfl⟩

theorem strHasPre_drop {p l : List Char} (h : strHasPre p l = true) :
    l = p ++ l.drop p.length := by
  rcases (strHasPre_iff p l).mp h with ⟨t, rfl⟩
  rw [List.drop_left]

theorem strHasPre_append (p t : List Char) : strHasPre p (p ++ t) = true :=
  (strHasPre_iff p (p ++ t)).mpr ⟨t, rfl⟩

/-- JavaScript `s.startsWith(pre)`. -/
def jsStartsWith (s pre : String) : Bool :=
  strHasPre pre.data s.data

/-- JavaScript truthiness of a `string | undefined` value:
`undefined` and the empty string are falsy. -/
def jsTruthyOpt (o : Option String) : Bool :=
  match o with
  | none => false
  | some s => s ≠ ""

/-- JavaScript `a && f(a)` for `a : string | undefined`: a falsy `a` is
returned unchanged, otherwise the result of `f`. -/
def jsAndStr (a : Option String) (f : String → Option String) : Option String :=
  match a with
  | none => none
  | some s => if s = "" then some "" else f s

/-! ## Version normalizer: the tag/bundle extractors

`tryGetBundleVersionFromTagName` applies `/^codeql-bundle-(.*)$/`: anchored at
both ends, so the whole string after the fixed prefix is captured, and the
match fails if that suffix contains a line terminator (a regex `.` cannot
match one, and `$` without the `m` flag only matches at the very end). -/

def tryGetBundleVersionFromTagName (tagName : String) : Option String :=
  if strHasPre "codeql-bundle-".data tagName.data
      && (tagName.data.drop 14).all (fun c => !lineTerm c) then
    some (String.mk (tagName.data.drop 14))
  else
    none

/-!
`tryGetTagNameFromUrl` applies the unanchored `/\/(codeql-bundle-.*)\//` and
`getCodeQLURLVersion` applies `/\/codeql-bundle-(.*)\//`;
`tryGetCodeQLCliVersionForRelease` applies `/cli-version-(.*)\.txt/`.
All three are "literal prefix, then a greedy `(.*)`, then a literal close"
patterns.  A backtracking regex engine finds the leftmost start position at
which the whole pattern matches, and within it the greedy `(.*)` extends to
the *last* position (with no intervening line terminator) at which the closing
literal still matches.  `findFirstWithClose` implements exactly that. -/

/-- Greedy part of a `(.*)close` match: the largest `k` such that the capture
`after.take k` contains no line terminator and `closePat` matches at `k`. -/
def lastClose (closePat after : List Char) : Option Nat :=
  (List.range ((after.takeWhile (fun c => !lineTerm c)).length + 1)).reverse.find?
    (fun k => strHasPre closePat (after.drop k))

/-- Try the pattern `openPat(.*)closePat` at the start of `l`, returning the
capture of the greedy `(.*)`. -/
def matchOpenClose (openPat closePat l : List Char) : Option (List Char) :=
  if strHasPre openPat l then
    match lastClose closePat (l.drop openPat.length) with
    | some k => some ((l.drop openPat.length).take k)
    | none => none
  else none

/-- Leftmost match of `openPat(.*)closePat` anywhere in the string. -/
def findFirstWithClose (openPat closePat : List Char) : List Char → Option (List Char)
  | [] => none
  | c :: rest =>
    match matchOpenClose openPat closePat (c :: rest) with
    | some r => some r
    | none => findFirstWithClose openPat closePat rest

/-- `url.match(/\/(codeql-bundle-.*)\//)?.[1]`: the capture includes the
`codeql-bundle-` prefix but not the surrounding slashes. -/
def tryGetTagNameFromUrl (url : String) : Option String :=
  (findFirstWithClose "/codeql-bundle-".data "/".data url.data).map
    (fun mid => "codeql-bundle-" ++ String.mk mid)

def tryGetBundleVersionFromUrl (url : String) : Option String :=
  match tryGetTagNameFromUrl url with
  | none => none
  | some tagName => tryGetBundleVersionFromTagName tagName

/-- `url.match(/\/codeql-bundle-(.*)\//)`: same pattern, but the capture
excludes the `codeql-bundle-` prefix; a miss raises a hard error. -/
def getCodeQLURLVersion (url : String) : Except String String :=
  match findFirstWithClose "/codeql-bundle-".data "/".data url.data with
  | some mid => .ok (String.mk mid)
  | none => .error ("Malformed tools url: " ++ url ++ ". Version could not be inferred")

example : tryGetBundleVersionFromTagName "codeql-bundle-20230101" = some "20230101" := by
  decide

example : tryGetBundleVersionFromTagName "not-a-bundle" = none := by decide

example :
    tryGetTagNameFromUrl "https://host/dl/codeql-bundle-20230101/codeql-bundle-linux64.tar.gz"
      = some "codeql-bundle-20230101" := by decide

example : getCodeQLURLVersion "https://host/dl/codeql-bundle-2.12.1/b.tar.gz"
      = .ok "2.12.1" := rfl

/-! ## C8: characterization of the bundle-version extractor -/

/-- C8 (amended): the bundle-version extractor returns `X` exactly on inputs
`codeql-bundle-X` where `X` is free of line terminators; on every other
string (including `codeql-bundle-X` with a line terminator inside `X`, which
the claim as stated overlooks) it returns none. -/
theorem tryGetBundleVersionFromTagName_eq_some_iff (s r : String) :
    tryGetBundleVersionFromTagName s = some r ↔
      s = "codeql-bundle-" ++ r ∧ r.data.all (fun c => !lineTerm c) := by
  unfold tryGetBundleVersionFromTagName
  constructor
  · intro h
    split at h
    next hcond =>
      obtain ⟨hpre, hall⟩ := Bool.and_eq_true_iff.mp hcond
      obtain rfl : String.mk (s.data.drop 14) = r := Option.some.inj h
      refine ⟨?_, hall⟩
      apply String.ext
      rw [String.data_append]
      have := strHasPre_drop hpre
      simpa using this
    next => exact absurd h (by simp)
  · rintro ⟨rfl, hall⟩
    have hdata : ("codeql-bundle-" ++ r).data = "codeql-bundle-".data ++ r.data :=
      String.data_append ..
    have hdrop : ("codeql-bundle-" ++ r).data.drop 14 = r.data := by
      rw [hdata]
      exact List.drop_left' (by decide)
    have hpre : strHasPre "codeql-bundle-".data ("codeql-bundle-" ++ r).data = true := by
      rw [hdata]
      exact strHasPre_append ..
    rw [hpre]
    simp only [hdrop, hall, Bool.and_true, if_true]

/-- C8 counterexample: `"codeql-bundle-a\nb"` has the claimed form
`codeql-bundle-X` with `X = "a\nb"`, but the extractor returns `none`
rather than `X`: the regex `$` anchor cannot match across the newline. -/
theorem c8_counterexample :
    tryGetBundleVersionFromTagName ("codeql-bundle-" ++ "a\nb") ≠ some "a\nb" := by
  decide

/-! ## Version normalizer: `convertToSemVer`

`convertToSemVer` (source lines 206-217) delegates to the `semver` npm
package: `semver.valid` parses with the strict SemVer 2.0.0 grammar (an
optional leading `v`, numeric `major.minor.patch` components without leading
zeros and below `Number.MAX_SAFE_INTEGER`, optional dot-separated prerelease
identifiers, optional dot-separated build metadata), after trimming
whitespace, rejecting inputs longer than 256 characters, and returns the
canonical `major.minor.patch[-prerelease]` rendering (build metadata is
dropped); `semver.clean` additionally strips leading `=`/`v` characters
before parsing.  The model below implements that grammar; version components
are kept as their matched character strings, which coincides with the
package's number/string normalization because the strict grammar forbids
leading zeros. -/

/-- Whitespace removed by JavaScript `String.prototype.trim` (the common
cases; exotic Unicode spaces are not used by this code). -/
def jsWS (c : Char) : Bool :=
  c = ' ' || c = '\t' || c = '\n' || c = '\r' || c = '\x0b' || c = '\x0c' ||
    c = '\u00a0' || c = '\ufeff'

def trimL (l : List Char) : List Char :=
  ((l.dropWhile jsWS).reverse.dropWhile jsWS).reverse

/-- `String.prototype.split(sep)` for a one-character separator. -/
def splitOnCharL (sep : Char) : List Char → List (List Char)
  | [] => [[]]
  | c :: cs =>
    if c = sep then [] :: splitOnCharL sep cs
    else
      match splitOnCharL sep cs with
      | p :: ps => (c :: p) :: ps
      | [] => [[c]]

/-- `Array.prototype.join(sep)` for a one-character separator. -/
def joinSep (sep : Char) : List (List Char) → List Char
  | [] => []
  | [x] => x
  | x :: xs => x ++ sep :: joinSep sep xs

/-- Split at the first occurrence of `sep`, if any. -/
def splitFirst (sep : Char) : List Char → List Char × Option (List Char)
  | [] => ([], none)
  | c :: cs =>
    if c = sep then ([], some cs)
    else (c :: (splitFirst sep cs).1, (splitFirst sep cs).2)

def digitC (c : Char) : Bool := '0' ≤ c && c ≤ '9'

def alphaC (c : Char) : Bool := ('a' ≤ c && c ≤ 'z') || ('A' ≤ c && c ≤ 'Z')

/-- Characters allowed in prerelease/build identifiers: `[0-9A-Za-z-]`. -/
def idChar (c : Char) : Bool := digitC c || alphaC c || c = '-'

def MAX_SAFE_INTEGER : Nat := 2 ^ 53 - 1

/-- Decimal value of a digit string. -/
def decValue (l : List Char) : Nat := l.foldl (fun n c => n * 10 + (c.toNat - 48)) 0

/-- SemVer numeric identifier `0|[1-9]\d*`: digits, no leading zero. -/
def isNumericIdent : List Char → Bool
  | [] => false
  | [c] => digitC c
  | c :: rest => digitC c && c ≠ '0' && rest.all digitC

/-- A main version component: numeric identifier whose value fits in a safe
integer (the `semver` package raises, hence fails to parse, beyond that). -/
def validMainNum (l : List Char) : Bool :=
  isNumericIdent l && decValue l ≤ MAX_SAFE_INTEGER

/-- Prerelease identifier: `0|[1-9]\d*` or `\d*[a-zA-Z-][a-zA-Z0-9-]*`. -/
def validPreId (l : List Char) : Bool :=
  isNumericIdent l || (!l.isEmpty && l.all idChar && l.any (fun c => !digitC c))

/-- Build identifier: `[0-9A-Za-z-]+` (leading zeros allowed). -/
def validBuildId (l : List Char) : Bool := !l.isEmpty && l.all idChar

def validBuild (l : List Char) : Bool := (splitOnCharL '.' l).all validBuildId

/-- A parsed strict-grammar semantic version; components are kept as their
matched character strings. -/
structure SemV where
  major : List Char
  minor : List Char
  patch : List Char
  pre : List (List Char)
deriving Repr, DecidableEq

/-- The `SemVer.prototype.version` canonical rendering:
`major.minor.patch` plus `-`-prefixed dot-joined prerelease identifiers. -/
def formatSemV (p : SemV) : List Char :=
  p.major ++ '.' :: (p.minor ++ '.' :: (p.patch ++
    (if p.pre = [] then [] else '-' :: joinSep '.' p.pre)))

def stripLeadV (l : List Char) : List Char :=
  if l.head? = some 'v' then l.tail else l

def parseMain (l : List Char) : Option (List Char × List Char × List Char) :=
  match splitOnCharL '.' l with
  | [a, b, c] =>
    if validMainNum a && validMainNum b && validMainNum c then some (a, b, c) else none
  | _ => none

def parsePre (l : List Char) : Option (List (List Char)) :=
  if (splitOnCharL '.' l).all validPreId then some (splitOnCharL '.' l) else none

/-- Match the strict `FULL` regex against an already-trimmed string:
optional `v`, then `major.minor.patch`, then an optional `-`-introduced
prerelease part, then an optional `+`-introduced build part.  Main components
contain no `-`/`+` and identifiers no `+`, so splitting at the first `+` and
then the first `-` realizes the grammar. -/
def parseSemV (l : List Char) : Option SemV :=
  if (match (splitFirst '+' (stripLeadV l)).2 with | some b => validBuild b | none => true) then
    match parseMain (splitFirst '-' (splitFirst '+' (stripLeadV l)).1).1 with
    | some (a, b, c) =>
      match (splitFirst '-' (splitFirst '+' (stripLeadV l)).1).2 with
      | none => some ⟨a, b, c, []⟩
      | some pp => (parsePre pp).map (fun ids => ⟨a, b, c, ids⟩)
    | none => none
  else none

/-- `semver.parse` / the `SemVer` constructor: length limit, trim, grammar. -/
def semverParse (l : List Char) : Option SemV :=
  if l.length > 256 then none else parseSemV (trimL l)

/-- `semver.valid(v)`: the canonical rendering, or `none`. -/
def semverValid (s : String) : Option String :=
  (semverParse s.data).map (fun p => String.mk (formatSemV p))

/-- `semver.clean(v)`: trim, strip leading `=`/`v` characters, then parse. -/
def semverClean (s : String) : Option String :=
  (semverParse ((trimL s.data).dropWhile (fun c => c = '=' || c = 'v'))).map
    (fun p => String.mk (formatSemV p))

/-- `convertToSemVer` (lines 206-217): wrap non-semver input as a
`0.0.0-` prerelease, clean, and raise if the cleaned form still fails. -/
def convertToSemVer (version : String) : Except String String :=
  match semverClean (if (semverValid version).isSome then version else "0.0.0-" ++ version) with
  | some s => .ok s
  | none =>
    .error ("Bundle version "
      ++ (if (semverValid version).isSome then version else "0.0.0-" ++ version)
      ++ " is not in SemVer format.")

example : convertToSemVer "2.12.1" = .ok "2.12.1" := rfl

example : convertToSemVer "20230101" = .ok "0.0.0-20230101" := rfl

example : convertToSemVer "v1.2.3" = .ok "1.2.3" := rfl

example : convertToSemVer "1.2.3+build.7" = .ok "1.2.3" := rfl

example : (convertToSemVer "=x").isOk = false := rfl

/-! ## Splitting / joining lemmas -/

theorem splitOnCharL_ne_nil (sep : Char) (l : List Char) : splitOnCharL sep l ≠ [] := by
  induction l with
  | nil => simp [splitOnCharL]
  | cons c cs ih =>
    rw [splitOnCharL]
    split
    · simp
    · match h : splitOnCharL sep cs with
      | [] => exact absurd h ih
      | p :: ps => simp

theorem splitOnCharL_not_mem {sep : Char} {l : List Char} (h : sep ∉ l) :
    splitOnCharL sep l = [l] := by
  induction l with
  | nil => rfl
  | cons c cs ih =>
    rw [List.mem_cons, not_or] at h
    rw [splitOnCharL, if_neg (fun hc => h.1 hc.symm), ih h.2]

theorem splitOnCharL_append {sep : Char} {x : List Char} (y : List Char) (h : sep ∉ x) :
    splitOnCharL sep (x ++ sep :: y) = x :: splitOnCharL sep y := by
  induction x with
  | nil => simp [splitOnCharL]
  | cons c cs ih =>
    rw [List.mem_cons, not_or] at h
    rw [List.cons_append]
    conv_lhs => rw [splitOnCharL]
    rw [if_neg (fun hc => h.1 hc.symm), ih h.2]

theorem joinSep_cons (sep : Char) (x : List Char) {rest : List (List Char)}
    (h : rest ≠ []) : joinSep sep (x :: rest) = x ++ sep :: joinSep sep rest := by
  match rest with
  | [] => exact absurd rfl h
  | y :: ys => rfl

theorem joinSep_splitOnCharL (sep : Char) (l : List Char) :
    joinSep sep (splitOnCharL sep l) = l := by
  induction l with
  | nil => rfl
  | cons c cs ih =>
    rw [splitOnCharL]
    split
    next hc =>
      subst hc
      rw [joinSep_cons _ [] (splitOnCharL_ne_nil _ cs), ih]
      rfl
    next hc =>
      match h : splitOnCharL sep cs with
      | [] => exact absurd h (splitOnCharL_ne_nil sep cs)
      | p :: ps =>
        rw [h] at ih
        match ps with
        | [] =>
          simp only [joinSep] at ih ⊢
          rw [ih]
        | q :: qs =>
          rw [joinSep_cons sep p (by simp)] at ih
          rw [joinSep_cons sep (c :: p) (by simp), List.cons_append, ih]

theorem splitOnCharL_joinSep (sep : Char) :
    ∀ ids : List (List Char), ids ≠ [] → (∀ id ∈ ids, sep ∉ id) →
      splitOnCharL sep (joinSep sep ids) = ids := by
  intro ids
  induction ids with
  | nil => intro h; exact absurd rfl h
  | cons x rest ih =>
    intro _ hall
    match rest with
    | [] =>
      show splitOnCharL sep (joinSep sep [x]) = [x]
      exact splitOnCharL_not_mem (hall x (by simp))
    | y :: ys =>
      rw [joinSep_cons sep x (by simp),
        splitOnCharL_append _ (hall x (by simp)),
        ih (by simp) (fun id hid => hall id (List.mem_cons_of_mem x hid))]

theorem splitFirst_not_mem {sep : Char} {l : List Char} (h : sep ∉ l) :
    splitFirst sep l = (l, none) := by
  induction l with
  | nil => rfl
  | cons c cs ih =>
    rw [List.mem_cons, not_or] at h
    rw [splitFirst, if_neg (fun hc => h.1 hc.symm), ih h.2]

theorem splitFirst_append {sep : Char} {x : List Char} (y : List Char) (h : sep ∉ x) :
    splitFirst sep (x ++ sep :: y) = (x, some y) := by
  induction x with
  | nil => simp [splitFirst]
  | cons c cs ih =>
    rw [List.mem_cons, not_or] at h
    rw [List.cons_append, splitFirst, if_neg (fun hc => h.1 hc.symm), ih h.2]

theorem splitFirst_eq_none {sep : Char} {l x : List Char}
    (h : splitFirst sep l = (x, none)) : l = x ∧ sep ∉ x := by
  induction l generalizing x with
  | nil =>
    injection h with h1 h2
    subst h1
    exact ⟨rfl, by simp⟩
  | cons c cs ih =>
    rw [splitFirst] at h
    split at h
    next hc => exact absurd (congrArg Prod.snd h) (by simp)
    next hc =>
      injection h with h1 h2
      subst h1
      have hrec : splitFirst sep cs = ((splitFirst sep cs).1, none) := by rw [← h2]
      obtain ⟨h3, h4⟩ := ih hrec
      refine ⟨by rw [← h3], ?_⟩
      rw [List.mem_cons, not_or]
      exact ⟨fun hsc => hc hsc.symm, h4⟩

theorem splitFirst_eq_some {sep : Char} {l x y : List Char}
    (h : splitFirst sep l = (x, some y)) : l = x ++ sep :: y ∧ sep ∉ x := by
  induction l generalizing x y with
  | nil => exact absurd (congrArg Prod.snd h) (by simp [splitFirst])
  | cons c cs ih =>
    rw [splitFirst] at h
    split at h
    next hc =>
      subst hc
      injection h with h1 h2
      subst h1
      injection h2 with h2
      subst h2
      exact ⟨rfl, by simp⟩
    next hc =>
      injection h with h1 h2
      subst h1
      have hrec : splitFirst sep cs = ((splitFirst sep cs).1, some y) := by rw [← h2]
      obtain ⟨h3, h4⟩ := ih hrec
      refine ⟨by rw [List.cons_append, ← h3], ?_⟩
      rw [List.mem_cons, not_or]
      exact ⟨fun hsc => hc hsc.symm, h4⟩

/-! ## Trim / dropWhile lemmas -/

theorem dropWhile_eq_self_of_all {p : Char → Bool} {l : List Char}
    (h : ∀ c ∈ l, p c = false) : l.dropWhile p = l := by
  cases l with
  | nil => rfl
  | cons c cs => rw [List.dropWhile_cons, h c (by simp)]; rfl

theorem dropWhile_eq_self_of_head {p : Char → Bool} {l : List Char}
    (h : ∀ c, l.head? = some c → p c = false) : l.dropWhile p = l := by
  cases l with
  | nil => rfl
  | cons c cs => rw [List.dropWhile_cons, h c rfl]; rfl

theorem trimL_eq_self {l : List Char} (h : ∀ c ∈ l, jsWS c = false) : trimL l = l := by
  unfold trimL
  rw [dropWhile_eq_self_of_all h, dropWhile_eq_self_of_all (fun c hc => h c ?_),
    List.reverse_reverse]
  exact List.mem_reverse.mp hc

theorem trimL_length_le (l : List Char) : (trimL l).length ≤ l.length := by
  unfold trimL
  calc (((l.dropWhile jsWS).reverse.dropWhile jsWS).reverse).length
      = ((l.dropWhile jsWS).reverse.dropWhile jsWS).length := List.length_reverse ..
    _ ≤ (l.dropWhile jsWS).reverse.length := (List.dropWhile_sublist ..).length_le
    _ = (l.dropWhile jsWS).length := List.length_reverse ..
    _ ≤ l.length := (List.dropWhile_sublist ..).length_le


/-! ## Character-class facts -/

/-- Characters that can appear in a canonical rendering `formatSemV`. -/
def semvChar (c : Char) : Bool := digitC c || alphaC c || c = '-' || c = '.'

theorem isNumericIdent_spec {l : List Char} (h : isNumericIdent l = true) :
    l ≠ [] ∧ ∀ c ∈ l, digitC c = true := by
  match l with
  | [] => exact absurd h (by simp [isNumericIdent])
  | [c] =>
    refine ⟨by simp, fun d hd => ?_⟩
    rw [List.mem_singleton] at hd
    subst hd
    exact h
  | c :: c2 :: rest =>
    simp only [isNumericIdent, Bool.and_eq_true, List.all_eq_true] at h
    refine ⟨by simp, fun d hd => ?_⟩
    rcases List.mem_cons.mp hd with rfl | hd2
    · exact h.1.1
    · exact h.2 d hd2

theorem validMainNum_spec {l : List Char} (h : validMainNum l = true) :
    l ≠ [] ∧ ∀ c ∈ l, digitC c = true :=
  isNumericIdent_spec (Bool.and_eq_true_iff.mp h).1

theorem validPreId_spec {l : List Char} (h : validPreId l = true) :
    l ≠ [] ∧ ∀ c ∈ l, idChar c = true := by
  rcases Bool.or_eq_true_iff.mp h with hn | ha
  · obtain ⟨hne, hdig⟩ := isNumericIdent_spec hn
    exact ⟨hne, fun c hc => by simp [idChar, hdig c hc]⟩
  · simp only [Bool.and_eq_true, List.all_eq_true] at ha
    exact ⟨by simpa using ha.1.1, ha.1.2⟩

theorem digitC_semvChar {c : Char} (h : digitC c = true) : semvChar c = true := by
  simp [semvChar, h]

theorem idChar_semvChar {c : Char} (h : idChar c = true) : semvChar c = true := by
  simp only [idChar, Bool.or_eq_true] at h
  rcases h with (h | h) | h <;> simp [semvChar, h]

theorem jsWS_chars {c : Char} (h : jsWS c = true) :
    c = ' ' ∨ c = '\t' ∨ c = '\n' ∨ c = '\r' ∨ c = '\x0b' ∨ c = '\x0c' ∨
      c = ' ' ∨ c = '﻿' := by
  simpa [jsWS, or_assoc] using h

theorem semvChar_not_ws {c : Char} (h : semvChar c = true) : jsWS c = false := by
  cases hws : jsWS c with
  | false => rfl
  | true =>
    rcases jsWS_chars hws with rfl | rfl | rfl | rfl | rfl | rfl | rfl | rfl <;>
      exact absurd h (by decide)

theorem semvChar_ne_plus {c : Char} (h : semvChar c = true) : c ≠ '+' :=
  fun hc => absurd (hc ▸ h) (by decide)

theorem digitC_ne_dot {c : Char} (h : digitC c = true) : c ≠ '.' :=
  fun hc => absurd (hc ▸ h) (by decide)

theorem digitC_ne_dash {c : Char} (h : digitC c = true) : c ≠ '-' :=
  fun hc => absurd (hc ▸ h) (by decide)

theorem idChar_ne_dot {c : Char} (h : idChar c = true) : c ≠ '.' :=
  fun hc => absurd (hc ▸ h) (by decide)

/-! ## `formatSemV` / `parseSemV` roundtrip -/

def wfSemV (p : SemV) : Prop :=
  validMainNum p.major = true ∧ validMainNum p.minor = true ∧ validMainNum p.patch = true ∧
    ∀ id ∈ p.pre, validPreId id = true

theorem mem_joinSep {c sep : Char} :
    ∀ {ids : List (List Char)}, c ∈ joinSep sep ids → c = sep ∨ ∃ id ∈ ids, c ∈ id := by
  intro ids
  induction ids with
  | nil => intro h; exact absurd h (by simp [joinSep])
  | cons x rest ih =>
    intro h
    match rest with
    | [] => exact Or.inr ⟨x, by simp, h⟩
    | y :: ys =>
      rw [joinSep_cons sep x (by simp)] at h
      rcases List.mem_append.mp h with hx | hrest
      · exact Or.inr ⟨x, by simp, hx⟩
      · rcases List.mem_cons.mp hrest with rfl | hj
        · exact Or.inl rfl
        · rcases ih hj with hc | ⟨id, hid, hcid⟩
          · exact Or.inl hc
          · exact Or.inr ⟨id, List.mem_cons_of_mem x hid, hcid⟩

theorem mainPart_chars {a b c : List Char} (ha : validMainNum a = true)
    (hb : validMainNum b = true) (hc : validMainNum c = true) :
    ∀ ch ∈ a ++ '.' :: (b ++ '.' :: c), (digitC ch || ch = '.') = true := by
  intro ch hch
  rcases List.mem_append.mp hch with h1 | h1
  · simp [(validMainNum_spec ha).2 ch h1]
  · rcases List.mem_cons.mp h1 with rfl | h2
    · simp
    · rcases List.mem_append.mp h2 with h3 | h3
      · simp [(validMainNum_spec hb).2 ch h3]
      · rcases List.mem_cons.mp h3 with rfl | h4
        · simp
        · simp [(validMainNum_spec hc).2 ch h4]

theorem formatSemV_chars {p : SemV} (h : wfSemV p) :
    ∀ c ∈ formatSemV p, semvChar c = true := by
  obtain ⟨hmaj, hmin, hpat, hpre⟩ := h
  intro c hc
  unfold formatSemV at hc
  rcases List.mem_append.mp hc with h1 | h1
  · exact digitC_semvChar ((validMainNum_spec hmaj).2 c h1)
  · rcases List.mem_cons.mp h1 with rfl | h2
    · simp [semvChar]
    · rcases List.mem_append.mp h2 with h3 | h3
      · exact digitC_semvChar ((validMainNum_spec hmin).2 c h3)
      · rcases List.mem_cons.mp h3 with rfl | h4
        · simp [semvChar]
        · rcases List.mem_append.mp h4 with h5 | h5
          · exact digitC_semvChar ((validMainNum_spec hpat).2 c h5)
          · split at h5
            · exact absurd h5 (by simp)
            · rcases List.mem_cons.mp h5 with rfl | h6
              · simp [semvChar]
              · rcases mem_joinSep h6 with rfl | ⟨id, hid, hcid⟩
                · simp [semvChar]
                · exact idChar_semvChar ((validPreId_spec (hpre id hid)).2 c hcid)

theorem formatSemV_head {p : SemV} (h : wfSemV p) :
    ∃ c, (formatSemV p).head? = some c ∧ digitC c = true := by
  obtain ⟨hne, hdig⟩ := validMainNum_spec h.1
  match hm : p.major with
  | [] => exact absurd hm hne
  | c :: rest =>
    refine ⟨c, ?_, hdig c (by rw [hm]; simp)⟩
    unfold formatSemV
    rw [hm]
    simp

theorem parseMain_format {a b c : List Char} (ha : validMainNum a = true)
    (hb : validMainNum b = true) (hc : validMainNum c = true) :
    parseMain (a ++ '.' :: (b ++ '.' :: c)) = some (a, b, c) := by
  have hna : '.' ∉ a := fun hm => digitC_ne_dot ((validMainNum_spec ha).2 _ hm) rfl
  have hnb : '.' ∉ b := fun hm => digitC_ne_dot ((validMainNum_spec hb).2 _ hm) rfl
  have hnc : '.' ∉ c := fun hm => digitC_ne_dot ((validMainNum_spec hc).2 _ hm) rfl
  unfold parseMain
  rw [splitOnCharL_append _ hna, splitOnCharL_append _ hnb, splitOnCharL_not_mem hnc]
  simp [ha, hb, hc]

theorem parsePre_join {ids : List (List Char)} (hne : ids ≠ [])
    (hall : ∀ id ∈ ids, validPreId id = true) :
    parsePre (joinSep '.' ids) = some ids := by
  have hdot : ∀ id ∈ ids, '.' ∉ id := fun id hid hm =>
    idChar_ne_dot ((validPreId_spec (hall id hid)).2 _ hm) rfl
  unfold parsePre
  rw [splitOnCharL_joinSep _ ids hne hdot, if_pos (List.all_eq_true.mpr hall)]

theorem parseSemV_format {p : SemV} (h : wfSemV p) :
    parseSemV (formatSemV p) = some p := by
  obtain ⟨ma, mi, pa, pre⟩ := p
  obtain ⟨hmaj, hmin, hpat, hpre⟩ := h
  have hwf : wfSemV ⟨ma, mi, pa, pre⟩ := ⟨hmaj, hmin, hpat, hpre⟩
  have hstrip : stripLeadV (formatSemV ⟨ma, mi, pa, pre⟩) = formatSemV ⟨ma, mi, pa, pre⟩ := by
    obtain ⟨c, hc, hd⟩ := formatSemV_head hwf
    have hcv : ¬ ((formatSemV ⟨ma, mi, pa, pre⟩).head? = some 'v') := by
      rw [hc]
      intro heq
      rw [Option.some.inj heq] at hd
      exact absurd hd (by decide)
    unfold stripLeadV
    rw [if_neg hcv]
  have hplus : '+' ∉ formatSemV ⟨ma, mi, pa, pre⟩ := fun hm =>
    semvChar_ne_plus (formatSemV_chars hwf _ hm) rfl
  have hsf : splitFirst '+' (formatSemV ⟨ma, mi, pa, pre⟩)
      = (formatSemV ⟨ma, mi, pa, pre⟩, none) := splitFirst_not_mem hplus
  have hdashmain : '-' ∉ ma ++ '.' :: (mi ++ '.' :: pa) := fun hm => by
    rcases Bool.or_eq_true_iff.mp (mainPart_chars hmaj hmin hpat _ hm) with hd | hd
    · exact digitC_ne_dash hd rfl
    · exact absurd (of_decide_eq_true hd) (by decide)
  cases pre with
  | nil =>
    have hfmt : formatSemV ⟨ma, mi, pa, []⟩ = ma ++ '.' :: (mi ++ '.' :: pa) := by
      unfold formatSemV
      simp
    rw [parseSemV, hstrip, hsf]
    dsimp only
    rw [hfmt, splitFirst_not_mem hdashmain]
    dsimp only
    rw [parseMain_format hmaj hmin hpat]
    rfl
  | cons x xs =>
    have hfmt : formatSemV ⟨ma, mi, pa, x :: xs⟩
        = (ma ++ '.' :: (mi ++ '.' :: pa)) ++ '-' :: joinSep '.' (x :: xs) := by
      unfold formatSemV
      simp
    rw [parseSemV, hstrip, hsf]
    dsimp only
    rw [hfmt, splitFirst_append _ hdashmain]
    dsimp only
    rw [parseMain_format hmaj hmin hpat]
    dsimp only
    rw [parsePre_join (by simp) hpre]
    rfl

theorem parseMain_inv {l a b c : List Char} (h : parseMain l = some (a, b, c)) :
    l = a ++ '.' :: (b ++ '.' :: c) ∧ validMainNum a = true ∧ validMainNum b = true ∧
      validMainNum c = true := by
  unfold parseMain at h
  split at h
  next a' b' c' heq =>
    split at h
    next hv =>
      have h0 : (a', b', c') = (a, b, c) := by injection h
      injection h0 with h1 h23
      injection h23 with h2 h3
      subst h1
      subst h2
      subst h3
      simp only [Bool.and_eq_true] at hv
      have hj := joinSep_splitOnCharL '.' l
      rw [heq] at hj
      exact ⟨hj.symm, hv.1.1, hv.1.2, hv.2⟩
    next => exact absurd h (by simp)
  next => exact absurd h (by simp)

theorem parsePre_inv {l : List Char} {ids : List (List Char)}
    (h : parsePre l = some ids) :
    l = joinSep '.' ids ∧ ids ≠ [] ∧ ∀ id ∈ ids, validPreId id = true := by
  unfold parsePre at h
  split at h
  next hall =>
    obtain rfl : splitOnCharL '.' l = ids := by injection h
    exact ⟨(joinSep_splitOnCharL '.' l).symm, splitOnCharL_ne_nil '.' l, List.all_eq_true.mp hall⟩
  next => exact absurd h (by simp)

theorem stripLeadV_length_le (l : List Char) : (stripLeadV l).length ≤ l.length := by
  unfold stripLeadV
  split
  · cases l <;> simp
  · exact le_refl _

theorem parseSemV_inv {l : List Char} {p : SemV} (h : parseSemV l = some p) :
    wfSemV p ∧ (formatSemV p).length ≤ l.length := by
  rw [parseSemV] at h
  split at h
  case isFalse => exact absurd h (by simp)
  case isTrue hguard =>
  cases hsp : splitFirst '+' (stripLeadV l) with
  | mk core bld =>
  rw [hsp] at h
  dsimp only at h
  have hcorelen : core.length ≤ l.length := by
    have h1 := stripLeadV_length_le l
    cases bld with
    | none =>
      obtain ⟨heq, -⟩ := splitFirst_eq_none hsp
      rw [← heq]
      exact h1
    | some bl =>
      obtain ⟨heq, -⟩ := splitFirst_eq_some hsp
      have h2 : (stripLeadV l).length = core.length + (1 + bl.length) := by
        rw [heq, List.length_append, List.length_cons]
        omega
      omega
  cases hsd : splitFirst '-' core with
  | mk mainP preO =>
  rw [hsd] at h
  dsimp only at h
  cases hm : parseMain mainP with
  | none => rw [hm] at h; exact absurd h (by simp)
  | some abc =>
    obtain ⟨a, b, c⟩ := abc
    rw [hm] at h
    dsimp only at h
    obtain ⟨hmp, hva, hvb, hvc⟩ := parseMain_inv hm
    cases preO with
    | none =>
      dsimp only at h
      obtain rfl : SemV.mk a b c [] = p := by injection h
      obtain ⟨hcore, -⟩ := splitFirst_eq_none hsd
      have hfmt : formatSemV ⟨a, b, c, []⟩ = a ++ '.' :: (b ++ '.' :: c) := by
        unfold formatSemV
        simp
      refine ⟨⟨hva, hvb, hvc, by simp⟩, ?_⟩
      rw [hfmt, ← hmp, ← hcore]
      exact hcorelen
    | some pp =>
      dsimp only at h
      cases hpp : parsePre pp with
      | none => rw [hpp] at h; exact absurd h (by simp)
      | some ids =>
        rw [hpp] at h
        obtain rfl : SemV.mk a b c ids = p := by
          simpa [Option.map_some'] using h
        obtain ⟨hcore, -⟩ := splitFirst_eq_some hsd
        obtain ⟨hppj, hidsne, hidsall⟩ := parsePre_inv hpp
        have hfmt : formatSemV ⟨a, b, c, ids⟩
            = (a ++ '.' :: (b ++ '.' :: c)) ++ '-' :: joinSep '.' ids := by
          unfold formatSemV
          simp [hidsne]
        refine ⟨⟨hva, hvb, hvc, hidsall⟩, ?_⟩
        have hlen : (formatSemV ⟨a, b, c, ids⟩).length = core.length := by
          rw [hfmt, ← hmp, ← hppj, ← hcore]
        omega

/-! ## `convertToSemVer`: success shape and idempotence (C2) -/

theorem semverClean_ok {w s : String} (h : semverClean w = some s) :
    ∃ p : SemV, wfSemV p ∧ s.data = formatSemV p ∧ (formatSemV p).length ≤ 256 := by
  unfold semverClean semverParse at h
  set t := (trimL w.data).dropWhile (fun c => c = '=' || c = 'v') with ht
  split at h
  next => exact absurd h (by simp)
  next hlen =>
    cases hps : parseSemV (trimL t) with
    | none => rw [hps] at h; exact absurd h (by simp)
    | some p =>
      rw [hps] at h
      obtain ⟨hwf, hle⟩ := parseSemV_inv hps
      have hs : String.mk (formatSemV p) = s := by simpa using h
      refine ⟨p, hwf, by rw [← hs], ?_⟩
      have h1 : (trimL t).length ≤ t.length := trimL_length_le _
      omega

theorem convertToSemVer_ok {v s : String} (h : convertToSemVer v = .ok s) :
    ∃ p : SemV, wfSemV p ∧ s.data = formatSemV p ∧ (formatSemV p).length ≤ 256 := by
  unfold convertToSemVer at h
  cases hc : semverClean (if (semverValid v).isSome then v else "0.0.0-" ++ v) with
  | none => rw [hc] at h; exact absurd h (by simp)
  | some s' =>
    rw [hc] at h
    obtain rfl : s' = s := by simpa using h
    exact semverClean_ok hc

theorem semverParse_format {p : SemV} (hwf : wfSemV p)
    (hlen : (formatSemV p).length ≤ 256) : semverParse (formatSemV p) = some p := by
  unfold semverParse
  rw [if_neg (by omega),
    trimL_eq_self (fun c hc => semvChar_not_ws (formatSemV_chars hwf c hc))]
  exact parseSemV_format hwf

theorem semverValid_canonical {p : SemV} (hwf : wfSemV p)
    (hlen : (formatSemV p).length ≤ 256) :
    semverValid (String.mk (formatSemV p)) = some (String.mk (formatSemV p)) := by
  unfold semverValid
  rw [show (String.mk (formatSemV p)).data = formatSemV p from rfl,
    semverParse_format hwf hlen]
  rfl

theorem formatSemV_head_not_eqv {p : SemV} (hwf : wfSemV p) :
    (formatSemV p).dropWhile (fun c => c = '=' || c = 'v') = formatSemV p := by
  apply dropWhile_eq_self_of_head
  intro c hc
  obtain ⟨c0, hc0, hd0⟩ := formatSemV_head hwf
  rw [hc0] at hc
  obtain rfl := Option.some.inj hc
  have h1 : c0 ≠ '=' := fun hx => absurd (hx ▸ hd0) (by decide)
  have h2 : c0 ≠ 'v' := fun hx => absurd (hx ▸ hd0) (by decide)
  simp [h1, h2]

theorem semverClean_canonical {p : SemV} (hwf : wfSemV p)
    (hlen : (formatSemV p).length ≤ 256) :
    semverClean (String.mk (formatSemV p)) = some (String.mk (formatSemV p)) := by
  unfold semverClean
  rw [show (String.mk (formatSemV p)).data = formatSemV p from rfl,
    trimL_eq_self (fun c hc => semvChar_not_ws (formatSemV_chars hwf c hc)),
    formatSemV_head_not_eqv hwf, semverParse_format hwf hlen]
  rfl

/-- C2: `convertToSemVer` is idempotent — whenever `convertToSemVer v`
succeeds with result `s`, applying `convertToSemVer` to `s` succeeds and
returns `s` itself. -/
theorem c2_convertToSemVer_idempotent (v s : String) (h : convertToSemVer v = .ok s) :
    convertToSemVer s = .ok s := by
  obtain ⟨p, hwf, hdata, hlen⟩ := convertToSemVer_ok h
  have hsmk : s = String.mk (formatSemV p) := by
    apply String.ext
    simpa using hdata
  subst hsmk
  unfold convertToSemVer
  simp only [semverValid_canonical hwf hlen, Option.isSome_some, if_true,
    semverClean_canonical hwf hlen]

/-- Witness for C2 at the spec's own example input `"20230101"`. -/
theorem c2_witness : convertToSemVer "0.0.0-20230101" = .ok "0.0.0-20230101" :=
  c2_convertToSemVer_idempotent "20230101" "0.0.0-20230101" (by rfl)

/-! ## Characterization of the greedy open/close scan (for C9, C10) -/

theorem take_append_le {α : Type} :
    ∀ (k : Nat) (l1 l2 : List α), k ≤ l1.length → (l1 ++ l2).take k = l1.take k
  | 0, _, _, _ => by simp
  | k + 1, [], _, h => by simp at h
  | k + 1, a :: l1, l2, h => by
    simp only [List.cons_append, List.take_succ_cons]
    rw [take_append_le k l1 l2 (by simpa using h)]

theorem drop_append_le {α : Type} :
    ∀ (k : Nat) (l1 l2 : List α), k ≤ l1.length → (l1 ++ l2).drop k = l1.drop k ++ l2
  | 0, _, _, _ => by simp
  | k + 1, [], _, h => by simp at h
  | k + 1, a :: l1, l2, h => by
    simp only [List.cons_append, List.drop_succ_cons]
    exact drop_append_le k l1 l2 (by simpa using h)

theorem takeWhile_eq_self_of_all {p : Char → Bool} {l : List Char}
    (h : ∀ c ∈ l, p c = true) : l.takeWhile p = l := by
  induction l with
  | nil => rfl
  | cons c cs ih =>
    rw [List.takeWhile_cons_of_pos (h c (by simp)), ih (fun d hd => h d (by simp [hd]))]

theorem lastClose_some {cl after : List Char} {k : Nat} (h : lastClose cl after = some k) :
    k ≤ (after.takeWhile (fun c => !lineTerm c)).length ∧
      strHasPre cl (after.drop k) = true := by
  unfold lastClose at h
  constructor
  · have hmem := List.mem_of_find?_eq_some h
    rw [List.mem_reverse, List.mem_range] at hmem
    omega
  · exact @List.find?_some Nat (fun k => strHasPre cl (after.drop k)) k
      ((List.range ((after.takeWhile (fun c => !lineTerm c)).length + 1)).reverse) h

theorem matchOpenClose_some_decomp {o cl l r : List Char}
    (h : matchOpenClose o cl l = some r) :
    (∃ q, l = o ++ (r ++ (cl ++ q))) ∧ r.all (fun c => !lineTerm c) = true := by
  unfold matchOpenClose at h
  split at h
  next hpre =>
    cases hlc : lastClose cl (l.drop o.length) with
    | none => rw [hlc] at h; exact absurd h (by simp)
    | some k =>
      rw [hlc] at h
      obtain rfl : (l.drop o.length).take k = r := by injection h
      obtain ⟨hk, hcl⟩ := lastClose_some hlc
      refine ⟨⟨((l.drop o.length).drop k).drop cl.length, ?_⟩, ?_⟩
      · conv_lhs => rw [strHasPre_drop hpre]
        congr 1
        conv_lhs => rw [← List.take_append_drop k (l.drop o.length)]
        congr 1
        exact strHasPre_drop hcl
      · obtain ⟨rest, hrest⟩ :=
          List.takeWhile_prefix (l := l.drop o.length) (p := fun c => !lineTerm c)
        have htk : (l.drop o.length).take k
            = ((l.drop o.length).takeWhile (fun c => !lineTerm c)).take k := by
          conv_lhs => rw [← hrest]
          exact take_append_le k _ rest hk
        rw [htk, List.all_eq_true]
        intro c hc
        exact List.all_eq_true.mp List.all_takeWhile c (List.take_subset _ _ hc)
  next => exact absurd h (by simp)

theorem findFirstWithClose_some_decomp {o cl : List Char} :
    ∀ {l r : List Char}, findFirstWithClose o cl l = some r →
      (∃ p q, l = p ++ (o ++ (r ++ (cl ++ q)))) ∧ r.all (fun c => !lineTerm c) = true := by
  intro l
  induction l with
  | nil => intro r h; exact absurd h (by simp [findFirstWithClose])
  | cons c cs ih =>
    intro r h
    rw [findFirstWithClose] at h
    split at h
    next r' hm =>
      obtain rfl : r' = r := by injection h
      obtain ⟨⟨q, hq⟩, hall⟩ := matchOpenClose_some_decomp hm
      exact ⟨⟨[], q, by simpa using hq⟩, hall⟩
    next hm =>
      obtain ⟨⟨p, q, hpq⟩, hall⟩ := ih h
      exact ⟨⟨c :: p, q, by rw [List.cons_append, ← hpq]⟩, hall⟩

theorem matchOpenClose_isSome_of_decomp (o cl q : List Char) {mid : List Char}
    (hmid : mid.all (fun c => !lineTerm c) = true) :
    (matchOpenClose o cl (o ++ (mid ++ (cl ++ q)))).isSome = true := by
  unfold matchOpenClose
  rw [if_pos (strHasPre_append _ _), List.drop_left]
  have hlen : mid.length
      ≤ ((mid ++ (cl ++ q)).takeWhile (fun c => !lineTerm c)).length := by
    rw [List.takeWhile_append,
      if_pos (by rw [takeWhile_eq_self_of_all (List.all_eq_true.mp hmid)]),
      List.length_append]
    omega
  have hP : strHasPre cl ((mid ++ (cl ++ q)).drop mid.length) = true := by
    rw [List.drop_left]
    exact strHasPre_append _ _
  have hex : (lastClose cl (mid ++ (cl ++ q))).isSome = true := by
    unfold lastClose
    refine List.find?_isSome.mpr ⟨mid.length, ?_, hP⟩
    rw [List.mem_reverse, List.mem_range]
    omega
  cases hlc : lastClose cl (mid ++ (cl ++ q)) with
  | none => rw [hlc] at hex; exact absurd hex (by simp)
  | some k => simp

theorem decomp_findFirstWithClose_isSome (oc : Char) (os cl : List Char) :
    ∀ (p mid q : List Char), mid.all (fun c => !lineTerm c) = true →
      (findFirstWithClose (oc :: os) cl
        (p ++ ((oc :: os) ++ (mid ++ (cl ++ q))))).isSome = true := by
  intro p
  induction p with
  | nil =>
    intro mid q hmid
    rw [List.nil_append, List.cons_append, findFirstWithClose, ← List.cons_append]
    cases hm : matchOpenClose (oc :: os) cl ((oc :: os) ++ (mid ++ (cl ++ q))) with
    | none =>
      have := matchOpenClose_isSome_of_decomp (oc :: os) cl q hmid
      rw [hm] at this
      exact absurd this (by simp)
    | some r => simp
  | cons c p ih =>
    intro mid q hmid
    rw [List.cons_append, findFirstWithClose]
    cases hm : matchOpenClose (oc :: os) cl
        (c :: (p ++ ((oc :: os) ++ (mid ++ (cl ++ q))))) with
    | none => exact ih mid q hmid
    | some r => simp

theorem find?_reverse_range {P : Nat → Bool} :
    ∀ {n k : Nat}, k ≤ n → P k = true → (∀ j, k < j → j ≤ n → P j = false) →
      (List.range (n + 1)).reverse.find? P = some k := by
  intro n
  induction n with
  | zero =>
    intro k hk hP _
    obtain rfl : k = 0 := by omega
    simp [List.range_succ, hP]
  | succ n ih =>
    intro k hk hP habove
    rw [List.range_succ, List.reverse_append, List.reverse_singleton, List.singleton_append]
    by_cases hkn : k = n + 1
    · subst hkn
      rw [List.find?_cons_of_pos _ hP]
    · rw [List.find?_cons_of_neg _ ?_]
      · exact ih (by omega) hP (fun j h1 h2 => habove j h1 (by omega))
      · rw [habove (n + 1) (by omega) (le_refl _)]
        simp

/-- Scanning `pre ++ l` finds nothing inside `pre` when the opening literal
occurs at no position of `pre`. -/
theorem findFirstWithClose_skip {o cl : List Char} :
    ∀ (pre l : List Char),
      (∀ i, i < pre.length → strHasPre o ((pre ++ l).drop i) = false) →
      findFirstWithClose o cl (pre ++ l) = findFirstWithClose o cl l := by
  intro pre
  induction pre with
  | nil => intro l _; rw [List.nil_append]
  | cons c pre ih =>
    intro l h
    rw [List.cons_append, findFirstWithClose]
    have h0 : strHasPre o (c :: (pre ++ l)) = false := by
      have := h 0 (by simp)
      simpa using this
    have hm : matchOpenClose o cl (c :: (pre ++ l)) = none := by
      unfold matchOpenClose
      rw [if_neg (by simp [h0])]
    rw [hm]
    exact ih l (fun i hi => by
      have := h (i + 1) (by simpa using Nat.succ_lt_succ hi)
      simpa using this)

theorem dropWhile_eq_cons_head_not {p : Char → Bool} {l : List Char} {d : Char}
    {ds : List Char} (h : l.dropWhile p = d :: ds) : p d = false := by
  induction l with
  | nil => simp at h
  | cons c cs ih =>
    rw [List.dropWhile_cons] at h
    split at h
    · exact ih h
    · next hpc =>
      injection h with h1 _
      subst h1
      simpa using hpc

/-- Greedy close for the `/` pattern: the capture runs to the last slash that
is still on the same line. -/
theorem matchOpenClose_slash (o : List Char) {mid post : List Char}
    (hmid : mid.all (fun c => !lineTerm c) = true)
    (hpost : (post.takeWhile (fun c => !lineTerm c)).all (fun c => c ≠ '/') = true) :
    matchOpenClose o ['/'] (o ++ (mid ++ '/' :: post)) = some mid := by
  unfold matchOpenClose
  rw [if_pos (strHasPre_append _ _), List.drop_left]
  have hseg : (mid ++ '/' :: post).takeWhile (fun c => !lineTerm c)
      = mid ++ '/' :: post.takeWhile (fun c => !lineTerm c) := by
    rw [List.takeWhile_append,
      if_pos (by rw [takeWhile_eq_self_of_all (List.all_eq_true.mp hmid)]),
      List.takeWhile_cons_of_pos (by decide)]
  have hlc : lastClose ['/'] (mid ++ '/' :: post) = some mid.length := by
    unfold lastClose
    rw [hseg]
    have hlen : (mid ++ '/' :: post.takeWhile (fun c => !lineTerm c)).length
        = mid.length + 1 + (post.takeWhile (fun c => !lineTerm c)).length := by
      rw [List.length_append, List.length_cons]
      omega
    rw [hlen]
    apply find?_reverse_range
    · omega
    · rw [List.drop_left]
      simp [strHasPre]
    · intro j h1 h2
      have hij : j - (mid.length + 1) ≤ (post.takeWhile (fun c => !lineTerm c)).length := by
        omega
      have hdrop : (mid ++ '/' :: post).drop j = post.drop (j - (mid.length + 1)) := by
        have hj : j = (mid.length + 1) + (j - (mid.length + 1)) := by omega
        conv_lhs => rw [hj]
        rw [← List.drop_drop]
        congr 1
        have : (mid ++ '/' :: post).drop (mid.length + 1)
            = ((mid ++ ['/']) ++ post).drop (mid.length + 1) := by
          congr 1
          simp
        rw [this]
        have hlen2 : (mid ++ ['/']).length = mid.length + 1 := by simp
        rw [show mid.length + 1 = (mid ++ ['/']).length from hlen2.symm, List.drop_left]
      rw [hdrop]
      set i := j - (mid.length + 1) with hidef
      obtain ⟨rest, hrest⟩ := @List.takeWhile_prefix Char post (fun c => !lineTerm c)
      have hpd : post.drop i = (post.takeWhile (fun c => !lineTerm c)).drop i ++ rest := by
        conv_lhs => rw [← hrest]
        exact drop_append_le i _ rest hij
      rw [hpd]
      cases htw : (post.takeWhile (fun c => !lineTerm c)).drop i with
      | cons d ds =>
        have hd : d ∈ post.takeWhile (fun c => !lineTerm c) := by
          have : d ∈ (post.takeWhile (fun c => !lineTerm c)).drop i := by
            rw [htw]; simp
          exact List.drop_subset _ _ this
        have hdne : ¬ (('/' : Char) = d) := by
          intro hcon
          have := List.all_eq_true.mp hpost d hd
          rw [← hcon] at this
          simp at this
        rw [List.cons_append]
        simp [strHasPre, hdne]
      | nil =>
        rw [List.nil_append]
        cases hrw : rest with
        | nil => simp [strHasPre]
        | cons d ds =>
          have hrest2 : rest = post.dropWhile (fun c => !lineTerm c) := by
            have htdw := List.takeWhile_append_dropWhile (p := fun c => !lineTerm c) (l := post)
            have h3 : post.takeWhile (fun c => !lineTerm c) ++ rest
                = post.takeWhile (fun c => !lineTerm c)
                  ++ post.dropWhile (fun c => !lineTerm c) := by
              rw [hrest, htdw]
            exact List.append_cancel_left h3
          have hdw : post.dropWhile (fun c => !lineTerm c) = d :: ds := by
            rw [← hrest2, hrw]
          have hdlt : lineTerm d = true := by
            have := dropWhile_eq_cons_head_not hdw
            simpa using this
          have hdne : ¬ (('/' : Char) = d) := by
            intro hcon
            rw [← hcon] at hdlt
            exact absurd hdlt (by decide)
          simp [strHasPre, hdne]
  rw [hlc]
  dsimp only
  rw [List.take_left' rfl]

/-- C9 (amended): at the first position where `/codeql-bundle-` is followed by
a later slash, the extractor captures `codeql-bundle-` plus *everything up to
the last slash on that line* — the capture may span several path segments —
rather than a single slash-free segment. -/
theorem c9_tryGetTagNameFromUrl_greedy (url : String) (pre mid post : List Char)
    (hurl : url.data = pre ++ ("/codeql-bundle-".data ++ (mid ++ '/' :: post)))
    (hfirst : ∀ i, i < pre.length →
      strHasPre "/codeql-bundle-".data (url.data.drop i) = false)
    (hmid : mid.all (fun c => !lineTerm c) = true)
    (hpost : (post.takeWhile (fun c => !lineTerm c)).all (fun c => c ≠ '/') = true) :
    tryGetTagNameFromUrl url = some ("codeql-bundle-" ++ String.mk mid) := by
  unfold tryGetTagNameFromUrl
  rw [hurl]
  rw [findFirstWithClose_skip pre _ (fun i hi => by
    have := hfirst i hi
    rwa [hurl] at this)]
  have hm : matchOpenClose "/codeql-bundle-".data "/".data
      ("/codeql-bundle-".data ++ (mid ++ '/' :: post)) = some mid :=
    matchOpenClose_slash "/codeql-bundle-".data hmid hpost
  have hcons : "/codeql-bundle-".data ++ (mid ++ '/' :: post)
      = '/' :: ("codeql-bundle-".data ++ (mid ++ '/' :: post)) := rfl
  rw [hcons] at hm ⊢
  rw [findFirstWithClose, hm]
  rfl

/-- Formalization of the claim's own notion, for the C9 counterexample: the
slash-free path segments lying strictly between two slashes that start with
`codeql-bundle-`. -/
def specSlashFreeBundleSegments (url : String) : List String :=
  ((((splitOnCharL '/' url.data).drop 1).dropLast).filter
    (fun seg => strHasPre "codeql-bundle-".data seg)).map String.mk

/-- C9 counterexample: in `"/codeql-bundle-a/b/"` the unique slash-free
segment between slashes matching `codeql-bundle-*` is `codeql-bundle-a`, but
the extractor returns `codeql-bundle-a/b` (the greedy `.*` runs to the last
slash), so it does not return "exactly the single path segment". -/
theorem c9_counterexample :
    specSlashFreeBundleSegments "/codeql-bundle-a/b/" = ["codeql-bundle-a"] ∧
    tryGetTagNameFromUrl "/codeql-bundle-a/b/" = some "codeql-bundle-a/b" ∧
    ("codeql-bundle-a/b" : String) ≠ "codeql-bundle-a" := by
  refine ⟨by decide, by decide, by decide⟩

/-- Witness for C9 (amended) on a typical bundle download URL. -/
theorem c9_witness :
    tryGetTagNameFromUrl "https://h/codeql-bundle-20230101/codeql-bundle-linux64.tar.gz"
      = some "codeql-bundle-20230101" := by
  have := c9_tryGetTagNameFromUrl_greedy
    "https://h/codeql-bundle-20230101/codeql-bundle-linux64.tar.gz"
    "https://h".data "20230101".data "codeql-bundle-linux64.tar.gz".data
    (by decide) (by decide) (by decide) (by decide)
  exact this

/-- C10: `getCodeQLURLVersion` is total — for every URL it either returns the
captured suffix of a `/codeql-bundle-…/` occurrence (which exists in the URL,
line-terminator-free), or, exactly when no such closable occurrence exists,
raises the `Malformed tools url` error; it never returns a soft miss. -/
theorem c10_getCodeQLURLVersion_total (url : String) :
    (∃ m, getCodeQLURLVersion url = .ok m ∧
      (∃ p q, url.data = p ++ ("/codeql-bundle-".data ++ (m.data ++ ('/' :: q)))) ∧
      m.data.all (fun c => !lineTerm c) = true) ∨
    (getCodeQLURLVersion url
        = .error ("Malformed tools url: " ++ url ++ ". Version could not be inferred") ∧
      ¬ ∃ p mid q, url.data = p ++ ("/codeql-bundle-".data ++ (mid ++ ('/' :: q)))
          ∧ mid.all (fun c => !lineTerm c) = true) := by
  unfold getCodeQLURLVersion
  cases hf : findFirstWithClose "/codeql-bundle-".data "/".data url.data with
  | some mid =>
    left
    obtain ⟨⟨p, q, hpq⟩, hall⟩ := findFirstWithClose_some_decomp hf
    exact ⟨String.mk mid, rfl, ⟨p, q, hpq⟩, hall⟩
  | none =>
    right
    refine ⟨rfl, ?_⟩
    rintro ⟨p, mid, q, hurl, hmid⟩
    have hs := decomp_findFirstWithClose_isSome '/' "codeql-bundle-".data "/".data
      p mid q hmid
    have hs' : (findFirstWithClose "/codeql-bundle-".data "/".data url.data).isSome
        = true := by
      rw [hurl]
      exact hs
    rw [hf] at hs'
    exact absurd hs' (by simp)

/-! ## Data model: variants, platform, environment oracles -/

inductive GitHubVariant
  | dotcom
  | ghes
  | ghae
deriving DecidableEq, Repr

inductive Platform
  | win32
  | linux
  | darwin
  | other
deriving DecidableEq, Repr

structure Asset where
  name : String
  url : String
deriving DecidableEq, Repr

/-- Ambient configuration and I/O oracles consumed by the engine.  Toolcache
queries, GitHub API calls and filesystem checks are capabilities the code
awaits; they enter the model as explicit fields so each run is a pure
function of this record. -/
structure Env where
  /-- `process.platform`. -/
  platform : Platform
  /-- `getCodeQLActionRepository`: the wrapper's own repository identity, read
  from `GITHUB_ACTION_REPOSITORY` (or the canonical default when running a
  local checkout); the read lives in `actions-util`, outside this module. -/
  actionRepository : String
  /-- `toolcache.find("CodeQL", v)`; the library returns `""` on a miss. -/
  tcFind : String → String
  /-- `toolcache.findAllVersions("CodeQL")`. -/
  tcFindAll : List String
  /-- Modelled from the spec: `util.isGoodVersion`, the "general validity
  filter" applied to candidate pinned versions (its body is not in `src/`). -/
  isGoodVersion : String → Bool
  /-- `fs.existsSync(path.join(folder, "pinned-version"))`, keyed by folder. -/
  pinnedMarker : String → Bool
  /-- `getReleaseByTag(owner, repo, tag).data.assets`, keyed by the
  `owner/repo` slug and the tag (`none` when the request throws). -/
  getReleaseByTag : String → Option String → Option (List Asset)
  /-- The GHAE `codeql-bundle/find/{tag}` endpoint: asset name → asset id
  (`none` when the request throws). -/
  ghaeFindTag : Option String → Option (List (String × Nat))
  /-- The GHAE `codeql-bundle/download/{asset_id}` endpoint
  (`none` when the request throws). -/
  ghaeDownloadAsset : Nat → Option String
  /-- `defaults.json`: the CLI version shipped with the Action. -/
  defaultsCliVersion : String
  /-- `defaults.json`: the bundle tag shipped with the Action. -/
  defaultsBundleVersion : String

def CODEQL_DEFAULT_ACTION_REPOSITORY : String := "github/codeql-action"

/-- Modelled from the spec: the public host endpoint `util.GITHUB_DOTCOM_URL`
("the public host endpoint, always resolvable without authentication"),
whose definition lives in `util`, outside this module. -/
def GITHUB_DOTCOM_URL : String := "https://github.com"

def getCodeQLActionRepository (env : Env) : String := env.actionRepository

def getCodeQLBundleName : Platform → String
  | .win32 => "codeql-bundle-win64.tar.gz"
  | .linux => "codeql-bundle-linux64.tar.gz"
  | .darwin => "codeql-bundle-osx64.tar.gz"
  | .other => "codeql-bundle.tar.gz"

/-! ## Candidate source enumerator (C5) -/

/-- The dedup filter of `getCodeQLBundleDownloadURL`: keep an element exactly
when no equal element occurs earlier in the original array
(`!self.slice(0, index).some((other) => deepEqual(source, other))`). -/
def jsDedupAux {α : Type} [DecidableEq α] : List α → List α → List α
  | _, [] => []
  | seen, x :: xs =>
    if x ∈ seen then jsDedupAux (seen ++ [x]) xs
    else x :: jsDedupAux (seen ++ [x]) xs

def jsDedup {α : Type} [DecidableEq α] (l : List α) : List α := jsDedupAux [] l

def potentialDownloadSources (apiUrl actionRepository : String) : List (String × String) :=
  [(apiUrl, actionRepository),
   (apiUrl, CODEQL_DEFAULT_ACTION_REPOSITORY),
   (GITHUB_DOTCOM_URL, CODEQL_DEFAULT_ACTION_REPOSITORY)]

def uniqueDownloadSources (apiUrl actionRepository : String) : List (String × String) :=
  jsDedup (potentialDownloadSources apiUrl actionRepository)

/-- C5: for every host endpoint and action repository, the de-duplicated
candidate list has no repeated `(endpoint, repository)` pair, and the
public-GitHub/canonical-repository pair is its last element. -/
theorem c5_uniqueDownloadSources_nodup_last (apiUrl actionRepository : String) :
    (uniqueDownloadSources apiUrl actionRepository).Nodup ∧
    (uniqueDownloadSources apiUrl actionRepository).getLast?
      = some (GITHUB_DOTCOM_URL, CODEQL_DEFAULT_ACTION_REPOSITORY) := by
  unfold uniqueDownloadSources potentialDownloadSources jsDedup
  have e1 : (CODEQL_DEFAULT_ACTION_REPOSITORY = actionRepository)
      ↔ (actionRepository = CODEQL_DEFAULT_ACTION_REPOSITORY) := eq_comm
  have e2 : (GITHUB_DOTCOM_URL = apiUrl) ↔ (apiUrl = GITHUB_DOTCOM_URL) := eq_comm
  by_cases h1 : actionRepository = CODEQL_DEFAULT_ACTION_REPOSITORY <;>
    by_cases h2 : apiUrl = GITHUB_DOTCOM_URL <;>
      simp [jsDedupAux, e1, e2, h1, h2, Prod.ext_iff,
        List.getLast?_cons_cons, List.getLast?_singleton]

/-! ## Release asset locator (C6) -/

/-- The GHAE-only pre-step (lines 131-154): a dedicated find/download endpoint
pair, each failure (missing asset or thrown request) swallowed. -/
def ghaeLookup (env : Env) (bundleName : String) (tagName : Option String) : Option String :=
  match env.ghaeFindTag tagName with
  | some assets =>
    match (assets.find? (fun a => a.1 = bundleName)).map (fun a => a.2) with
    | some assetID => env.ghaeDownloadAsset assetID
    | none => none
  | none => none

/-- The candidate loop (lines 155-179): short-circuit (`break`) at the
public/canonical candidate, first asset whose name equals the platform bundle
name wins, per-candidate errors swallowed. -/
def bundleLoop (env : Env) (bundleName : String) (tagName : Option String)
    (fallback : String) : List (String × String) → String
  | [] => fallback
  | (apiURL, repository) :: rest =>
    if apiURL = GITHUB_DOTCOM_URL ∧ repository = CODEQL_DEFAULT_ACTION_REPOSITORY then
      fallback
    else
      match env.getReleaseByTag repository tagName with
      | some assets =>
        match assets.find? (fun asset => asset.name = bundleName) with
        | some asset => asset.url
        | none => bundleLoop env bundleName tagName fallback rest
      | none => bundleLoop env bundleName tagName fallback rest

/-- `getCodeQLBundleDownloadURL` (lines 115-181).  A `tagName` of `none`
renders as the string `"undefined"` in the synthesized URL, as JavaScript
template interpolation does. -/
def getCodeQLBundleDownloadURL (env : Env) (tagName : Option String)
    (apiUrl : String) (variant : GitHubVariant) : String :=
  match (if variant = .ghae
      then ghaeLookup env (getCodeQLBundleName env.platform) tagName
      else none) with
  | some url => url
  | none =>
    bundleLoop env (getCodeQLBundleName env.platform) tagName
      ("https://github.com/" ++ CODEQL_DEFAULT_ACTION_REPOSITORY ++ "/releases/download/"
        ++ tagName.getD "undefined" ++ "/" ++ getCodeQLBundleName env.platform)
      (uniqueDownloadSources apiUrl (getCodeQLActionRepository env))

theorem bundleLoop_all_fail (env : Env) (bundleName : String) (tagName : Option String)
    (fallback : String) :
    ∀ l : List (String × String),
      (∀ src ∈ l, ∀ assets, env.getReleaseByTag src.2 tagName = some assets →
        assets.find? (fun asset => asset.name = bundleName) = none) →
      bundleLoop env bundleName tagName fallback l = fallback := by
  intro l
  induction l with
  | nil => intro _; rfl
  | cons hd rest ih =>
    intro h
    obtain ⟨apiURL, repository⟩ := hd
    rw [bundleLoop]
    split
    · rfl
    · cases hr : env.getReleaseByTag repository tagName with
      | none => exact ih (fun src hs => h src (List.mem_cons_of_mem _ hs))
      | some assets =>
        have hfind := h (apiURL, repository) (by simp) assets hr
        simp only [hfind]
        exact ih (fun src hs => h src (List.mem_cons_of_mem _ hs))

/-- C6: when the GHAE pre-step (if applicable) and every candidate source
fail to produce an asset URL — each candidate being consulted at most once —
the locator does not fail: it returns the synthesized public URL for the
canonical repository and the requested tag. -/
theorem c6_downloadURL_fallback (env : Env) (tagName : String) (apiUrl : String)
    (variant : GitHubVariant)
    (hghae : ghaeLookup env (getCodeQLBundleName env.platform) (some tagName) = none)
    (hfail : ∀ src ∈ uniqueDownloadSources apiUrl (getCodeQLActionRepository env),
      ∀ assets, env.getReleaseByTag src.2 (some tagName) = some assets →
        assets.find? (fun asset => asset.name = getCodeQLBundleName env.platform)
          = none) :
    getCodeQLBundleDownloadURL env (some tagName) apiUrl variant
      = "https://github.com/github/codeql-action/releases/download/" ++ tagName ++ "/"
        ++ getCodeQLBundleName env.platform := by
  unfold getCodeQLBundleDownloadURL
  have hg : (if variant = .ghae
      then ghaeLookup env (getCodeQLBundleName env.platform) (some tagName)
      else none) = none := by
    split
    · exact hghae
    · rfl
  rw [hg, bundleLoop_all_fail env _ _ _ _ hfail]
  apply String.ext
  simp [String.data_append, CODEQL_DEFAULT_ACTION_REPOSITORY]

/-- A concrete environment used by witnesses: a GHES-like host whose API
lookups all fail, an empty toolcache, and the shipped defaults. -/
def envTest : Env where
  platform := .linux
  actionRepository := "fork/codeql-action"
  tcFind := fun _ => ""
  tcFindAll := []
  isGoodVersion := fun _ => true
  pinnedMarker := fun _ => false
  getReleaseByTag := fun _ _ => none
  ghaeFindTag := fun _ => none
  ghaeDownloadAsset := fun _ => none
  defaultsCliVersion := "2.15.0"
  defaultsBundleVersion := "codeql-bundle-20231114"

/-- Witness for C6: a GHES host with a fork repository where every lookup
errors out still yields the canonical public URL. -/
theorem c6_witness :
    getCodeQLBundleDownloadURL envTest (some "codeql-bundle-20230101")
        "https://ghes.example.com" .ghes
      = "https://github.com/github/codeql-action/releases/download/codeql-bundle-20230101/codeql-bundle-linux64.tar.gz" := by
  rw [c6_downloadURL_fallback envTest "codeql-bundle-20230101" "https://ghes.example.com"
    .ghes rfl (fun src hs assets ha => absurd ha (by simp [envTest]))]
  rfl

/-! ## Acquisition pipeline: `downloadCodeQL` (C1, C4, C7) -/

/-- I/O results consumed by the pipeline: the path `extractTar` produced and
the folder `cacheDir` returns for a given version string.  Downloading,
extraction, archive deletion and the disk-space snapshots affect no value the
pipeline returns besides these. -/
structure DownloadOracles where
  extractedPath : String
  cacheDirResult : String → String

structure DownloadResult where
  toolsVersion : String
  codeqlFolder : String
  /-- The toolcache version string passed to `cacheDir`, when it was called. -/
  cached : Option String
  /-- The authorization header supplied to `downloadTool`, if any. -/
  authorization : Option String
deriving DecidableEq, Repr

/-- `new URL(codeqlURL)` / `URLSearchParams`: the query component, modelled
textually — the fragment starts at the first `#`, the query at the first `?`
before it; parameters are `&`-separated with the key before the first `=`
(percent-decoding of keys is not modelled). -/
def urlSearchParams (url : String) : List (List Char) :=
  match (splitFirst '?' (url.data.takeWhile (fun c => c ≠ '#'))).2 with
  | none => []
  | some rest => (splitOnCharL '&' rest).filter (fun seg => seg ≠ [])

/-- `searchParams.has("token")`. -/
def searchHasToken (url : String) : Bool :=
  (urlSearchParams url).any (fun param => param.takeWhile (fun c => c ≠ '=') = "token".data)

/-- The authorization decision (lines 410-420): a URL-embedded token wins,
otherwise a token is attached only under the job's own API endpoint. -/
def downloadAuthorization (codeqlURL apiUrl apiAuth : String) : Option String :=
  if searchHasToken codeqlURL then none
  else if jsStartsWith codeqlURL (apiUrl ++ "/") then some ("token " ++ apiAuth)
  else none

/-- `String.prototype.includes`. -/
def listContains (sub : List Char) : List Char → Bool
  | [] => sub.isEmpty
  | c :: rest => strHasPre sub (c :: rest) || listContains sub rest

def containsSubstr (s sub : String) : Bool := listContains sub.data s.data

/-- `asset.name.match(/cli-version-(.*)\.txt/)?.[1]`. -/
def matchCliVersionMarker (name : String) : Option String :=
  (findFirstWithClose "cli-version-".data ".txt".data name.data).map String.mk

/-- `tryGetCodeQLCliVersionForRelease` (lines 82-96): the CLI version marker
files among the release assets; ambiguous (more than one) or missing markers
yield no version.  The `.filter((v) => v)` also drops an empty capture. -/
def tryGetCodeQLCliVersionForRelease (assets : List Asset) : Option String :=
  match (assets.filterMap (fun asset => matchCliVersionMarker asset.name)).filter
      (fun v => v ≠ "") with
  | [v] => some v
  | _ => none

/-- `tryFindCliVersionDotcomOnly` (lines 97-113): fetch the release for the
tag from the wrapper's repository; any error yields `none`. -/
def tryFindCliVersionDotcomOnly (env : Env) (tagName : String) : Option String :=
  match env.getReleaseByTag (getCodeQLActionRepository env) (some tagName) with
  | some assets => tryGetCodeQLCliVersionForRelease assets
  | none => none

/-- The cache-key regex `^[0-9]+\.[0-9]+\.[0-9]+$` (line 466). -/
def matchesStableCli (s : String) : Bool :=
  match splitOnCharL '.' s.data with
  | [a, b, c] =>
    !a.isEmpty && a.all digitC && !b.isEmpty && b.all digitC && !c.isEmpty && c.all digitC
  | _ => false

/-- Line 441: the bundle version from the resolver, else from the URL. -/
def pipelineBundleVersion (codeqlURL : String) (maybeBundleVersion : Option String) :
    Option String :=
  maybeBundleVersion.orElse (fun _ => tryGetBundleVersionFromUrl codeqlURL)

/-- Lines 452-456: recover a precise CLI version from the canonical
repository's release marker, only on the public host, only for canonical
bundle URLs, and only when none is known. -/
def pipelineCliVersion (env : Env) (codeqlURL : String) (maybeCliVersion : Option String)
    (variant : GitHubVariant) (bundleVersion : String) : Option String :=
  if maybeCliVersion = none ∧ variant = .dotcom
      ∧ containsSubstr codeqlURL ("/" ++ CODEQL_DEFAULT_ACTION_REPOSITORY ++ "/")
  then tryFindCliVersionDotcomOnly env ("codeql-bundle-" ++ bundleVersion)
  else maybeCliVersion

/-- Lines 466-468: the composite `<cliVersion>-<bundleVersion>` key for a
stable CLI version, otherwise the coerced bundle version (which may raise). -/
def pipelineToolcacheVersion (cliVersion : Option String) (bundleVersion : String) :
    Except String String :=
  match cliVersion with
  | some cv =>
    if matchesStableCli cv then .ok (cv ++ "-" ++ bundleVersion)
    else convertToSemVer bundleVersion
  | none => convertToSemVer bundleVersion

/-- `downloadCodeQL` (lines 400-478), as a pure function of its inputs and
oracles.  URL parsing is modelled textually (a malformed-URL throw from
`new URL` is outside the model). -/
def downloadCodeQL (env : Env) (codeqlURL : String)
    (maybeBundleVersion maybeCliVersion : Option String) (apiUrl apiAuth : String)
    (variant : GitHubVariant) (orc : DownloadOracles) : Except String DownloadResult :=
  match pipelineBundleVersion codeqlURL maybeBundleVersion with
  | none =>
    .ok { toolsVersion := maybeCliVersion.getD "unknown"
          codeqlFolder := orc.extractedPath
          cached := none
          authorization := downloadAuthorization codeqlURL apiUrl apiAuth }
  | some bundleVersion =>
    match pipelineToolcacheVersion
        (pipelineCliVersion env codeqlURL maybeCliVersion variant bundleVersion)
        bundleVersion with
    | .error e => .error e
    | .ok toolcacheVersion =>
      .ok { toolsVersion :=
              (pipelineCliVersion env codeqlURL maybeCliVersion variant
                bundleVersion).getD toolcacheVersion
            codeqlFolder := orc.cacheDirResult toolcacheVersion
            cached := some toolcacheVersion
            authorization := downloadAuthorization codeqlURL apiUrl apiAuth }

/-- Oracles used by witnesses. -/
def orcTest : DownloadOracles where
  extractedPath := "/tmp/extracted"
  cacheDirResult := fun v => "/cache/CodeQL/" ++ v

theorem pipelineBundleVersion_none (codeqlURL : String)
    (h : tryGetBundleVersionFromUrl codeqlURL = none) :
    pipelineBundleVersion codeqlURL none = none := by
  unfold pipelineBundleVersion
  simp [Option.orElse, h]

/-- C1 (amended): when the resolver supplies no bundle version and none can be
parsed from the URL, the pipeline never calls `cacheDir` and returns the
extracted path directly; its `toolsVersion` is the supplied CLI version when
one exists and `"unknown"` otherwise (the claim's unconditional `"unknown"`
holds only in the latter case). -/
theorem c1_skip_cache_no_bundle_version (env : Env) (codeqlURL : String)
    (maybeCliVersion : Option String) (apiUrl apiAuth : String)
    (variant : GitHubVariant) (orc : DownloadOracles)
    (hurl : tryGetBundleVersionFromUrl codeqlURL = none) :
    downloadCodeQL env codeqlURL none maybeCliVersion apiUrl apiAuth variant orc
      = .ok { toolsVersion := maybeCliVersion.getD "unknown"
              codeqlFolder := orc.extractedPath
              cached := none
              authorization := downloadAuthorization codeqlURL apiUrl apiAuth } := by
  unfold downloadCodeQL
  rw [pipelineBundleVersion_none codeqlURL hurl]

/-- C1 counterexample: a CLI version is supplied by the resolver, no bundle
version is determinable, and the result's `toolsVersion` is that CLI version
rather than `"unknown"`. -/
theorem c1_counterexample :
    (downloadCodeQL envTest "https://example.com/tools.tar.gz" none (some "2.12.1")
        "https://api.example.com" "tok" .dotcom orcTest).map (fun r => r.toolsVersion)
      = .ok "2.12.1"
    ∧ ("2.12.1" : String) ≠ "unknown" :=
  ⟨rfl, by decide⟩

/-- Witness for C1 (amended): with no CLI version either, the label is
`"unknown"`, no cache entry is created, and the extracted path is returned. -/
theorem c1_witness :
    downloadCodeQL envTest "https://example.com/tools.tar.gz" none none
        "https://api.example.com" "tok" .dotcom orcTest
      = .ok { toolsVersion := "unknown", codeqlFolder := "/tmp/extracted"
              cached := none, authorization := none } := by
  rw [c1_skip_cache_no_bundle_version envTest "https://example.com/tools.tar.gz" none
    "https://api.example.com" "tok" .dotcom orcTest (by rfl)]
  rfl

/-- C7: an authorization token is attached to the download request exactly
when the URL does not already embed a `token` query parameter and the URL
lies under the job's own configured API endpoint (`apiDetails.url`); the
attached header is `token <auth>`, and every successful pipeline run records
precisely this decision. -/
theorem c7_download_authorization (codeqlURL apiUrl apiAuth : String) :
    ((∃ t, downloadAuthorization codeqlURL apiUrl apiAuth = some t)
      ↔ searchHasToken codeqlURL = false
        ∧ jsStartsWith codeqlURL (apiUrl ++ "/") = true) ∧
    (∀ t, downloadAuthorization codeqlURL apiUrl apiAuth = some t →
      t = "token " ++ apiAuth) ∧
    (∀ env maybeBundleVersion maybeCliVersion variant orc r,
      downloadCodeQL env codeqlURL maybeBundleVersion maybeCliVersion apiUrl apiAuth
          variant orc = .ok r →
      r.authorization = downloadAuthorization codeqlURL apiUrl apiAuth) := by
  refine ⟨?_, ?_, ?_⟩
  · unfold downloadAuthorization
    by_cases h1 : searchHasToken codeqlURL <;>
      by_cases h2 : jsStartsWith codeqlURL (apiUrl ++ "/") <;>
        simp [h1, h2]
  · intro t ht
    unfold downloadAuthorization at ht
    split at ht
    · exact absurd ht (by simp)
    · split at ht
      · exact (Option.some.inj ht).symm
      · exact absurd ht (by simp)
  · intro env mbv mcv variant orc r hok
    unfold downloadCodeQL at hok
    cases hbv : pipelineBundleVersion codeqlURL mbv with
    | none =>
      simp only [hbv] at hok
      obtain rfl : _ = r := by injection hok
      rfl
    | some bv =>
      simp only [hbv] at hok
      cases htv : pipelineToolcacheVersion
          (pipelineCliVersion env codeqlURL mcv variant bv) bv with
      | error e =>
        simp only [htv] at hok
        exact absurd hok (by simp)
      | ok tv =>
        simp only [htv] at hok
        obtain rfl : _ = r := by injection hok
        rfl

/-- Witness for C7 on a URL under the configured API endpoint. -/
theorem c7_witness :
    (∃ t, downloadAuthorization "https://api.example.com/dl/b.tar.gz"
        "https://api.example.com" "tok" = some t) ∧
    ("token tok" : String) = "token " ++ "tok" ∧
    ({ toolsVersion := "unknown", codeqlFolder := "/tmp/extracted", cached := none,
       authorization := some "token tok" } : DownloadResult).authorization
      = downloadAuthorization "https://api.example.com/dl/b.tar.gz"
          "https://api.example.com" "tok" := by
  refine ⟨?_, ?_, ?_⟩
  · exact (c7_download_authorization "https://api.example.com/dl/b.tar.gz"
      "https://api.example.com" "tok").1.mpr ⟨rfl, rfl⟩
  · exact (c7_download_authorization "https://api.example.com/dl/b.tar.gz"
      "https://api.example.com" "tok").2.1 "token tok" (by rfl)
  · exact (c7_download_authorization "https://api.example.com/dl/b.tar.gz"
      "https://api.example.com" "tok").2.2 envTest none none .dotcom orcTest
      { toolsVersion := "unknown", codeqlFolder := "/tmp/extracted", cached := none,
        authorization := some "token tok" } (by rfl)

/-- The claim's characterization of a *stable* CLI version: exactly `x.y.z`
with three nonempty digit-only components (no pre-release or build metadata). -/
def stableSpec (s : String) : Prop :=
  ∃ a b c : List Char, a ≠ [] ∧ b ≠ [] ∧ c ≠ [] ∧
    (∀ ch ∈ a, digitC ch = true) ∧ (∀ ch ∈ b, digitC ch = true) ∧
    (∀ ch ∈ c, digitC ch = true) ∧ s.data = a ++ '.' :: (b ++ '.' :: c)

theorem isEmpty_false_of_ne_nil {l : List Char} (h : l ≠ []) : l.isEmpty = false := by
  cases l with
  | nil => exact absurd rfl h
  | cons c cs => rfl

theorem ne_nil_of_isEmpty_false {l : List Char} (h : l.isEmpty = false) : l ≠ [] := by
  intro hl
  subst hl
  simp at h

theorem matchesStableCli_iff (s : String) : matchesStableCli s = true ↔ stableSpec s := by
  constructor
  · intro h
    unfold matchesStableCli at h
    split at h
    next a b c heq =>
      simp only [Bool.and_eq_true, List.all_eq_true, Bool.not_eq_true'] at h
      obtain ⟨⟨⟨⟨⟨ha, hda⟩, hb⟩, hdb⟩, hc⟩, hdc⟩ := h
      refine ⟨a, b, c, ne_nil_of_isEmpty_false ha, ne_nil_of_isEmpty_false hb,
        ne_nil_of_isEmpty_false hc, hda, hdb, hdc, ?_⟩
      have hj := joinSep_splitOnCharL '.' s.data
      rw [heq] at hj
      exact hj.symm
    next => exact absurd h (by simp)
  · rintro ⟨a, b, c, ha, hb, hc, hda, hdb, hdc, hs⟩
    have hna : '.' ∉ a := fun hm => digitC_ne_dot (hda _ hm) rfl
    have hnb : '.' ∉ b := fun hm => digitC_ne_dot (hdb _ hm) rfl
    have hnc : '.' ∉ c := fun hm => digitC_ne_dot (hdc _ hm) rfl
    unfold matchesStableCli
    rw [hs, splitOnCharL_append _ hna, splitOnCharL_append _ hnb,
      splitOnCharL_not_mem hnc]
    simp only [Bool.and_eq_true, List.all_eq_true, Bool.not_eq_true']
    exact ⟨⟨⟨⟨⟨isEmpty_false_of_ne_nil ha, hda⟩, isEmpty_false_of_ne_nil hb⟩, hdb⟩,
      isEmpty_false_of_ne_nil hc⟩, hdc⟩

/-- C4: every cache entry the pipeline creates is keyed
`<cliVersion>-<bundleVersion>` exactly when the known (possibly
API-recovered) CLI version is a bare stable `x.y.z`, and otherwise by the
coercion `convertToSemVer` of the bundle version. -/
theorem c4_cache_key (env : Env) (codeqlURL : String)
    (maybeBundleVersion maybeCliVersion : Option String) (apiUrl apiAuth : String)
    (variant : GitHubVariant) (orc : DownloadOracles) (r : DownloadResult) (tv : String)
    (hok : downloadCodeQL env codeqlURL maybeBundleVersion maybeCliVersion apiUrl apiAuth
      variant orc = .ok r)
    (hcached : r.cached = some tv) :
    ∃ bv, pipelineBundleVersion codeqlURL maybeBundleVersion = some bv ∧
      ((∃ cv, pipelineCliVersion env codeqlURL maybeCliVersion variant bv = some cv ∧
          stableSpec cv ∧ tv = cv ++ "-" ++ bv) ∨
       ((∀ cv, pipelineCliVersion env codeqlURL maybeCliVersion variant bv = some cv →
          ¬ stableSpec cv) ∧ convertToSemVer bv = .ok tv)) := by
  unfold downloadCodeQL at hok
  cases hbv : pipelineBundleVersion codeqlURL maybeBundleVersion with
  | none =>
    simp only [hbv] at hok
    obtain rfl : _ = r := by injection hok
    simp at hcached
  | some bv =>
    simp only [hbv] at hok
    refine ⟨bv, rfl, ?_⟩
    cases htv : pipelineToolcacheVersion
        (pipelineCliVersion env codeqlURL maybeCliVersion variant bv) bv with
    | error e =>
      simp only [htv] at hok
      exact absurd hok (by simp)
    | ok tv' =>
      simp only [htv] at hok
      obtain rfl : _ = r := by injection hok
      obtain rfl : tv' = tv := by simpa using hcached
      unfold pipelineToolcacheVersion at htv
      cases hcv : pipelineCliVersion env codeqlURL maybeCliVersion variant bv with
      | some cv =>
        rw [hcv] at htv
        dsimp only at htv
        by_cases hst : matchesStableCli cv
        · rw [if_pos hst] at htv
          left
          refine ⟨cv, rfl, (matchesStableCli_iff cv).mp hst, ?_⟩
          exact (Except.ok.inj htv).symm
        · rw [if_neg hst] at htv
          right
          refine ⟨fun cv' hcv' => ?_, htv⟩
          obtain rfl : cv = cv' := Option.some.inj hcv'
          exact fun hs => hst ((matchesStableCli_iff cv).mpr hs)
      | none =>
        rw [hcv] at htv
        dsimp only at htv
        right
        exact ⟨fun cv' hcv' => absurd hcv' (by simp), htv⟩

/-- Witness for C4: a stable CLI version `2.12.1` with bundle `20230101`
produces the composite key `2.12.1-20230101`. -/
theorem c4_witness :
    ∃ bv, pipelineBundleVersion "https://h/codeql-bundle-20230101/b.tar.gz" none
        = some bv ∧
      ((∃ cv, pipelineCliVersion envTest "https://h/codeql-bundle-20230101/b.tar.gz"
          (some "2.12.1") .dotcom bv = some cv ∧ stableSpec cv ∧
          "2.12.1-20230101" = cv ++ "-" ++ bv) ∨
       ((∀ cv, pipelineCliVersion envTest "https://h/codeql-bundle-20230101/b.tar.gz"
          (some "2.12.1") .dotcom bv = some cv → ¬ stableSpec cv) ∧
        convertToSemVer bv = .ok "2.12.1-20230101")) :=
  c4_cache_key envTest "https://h/codeql-bundle-20230101/b.tar.gz" none (some "2.12.1")
    "https://api.example.com" "tok" .dotcom orcTest
    { toolsVersion := "2.12.1", codeqlFolder := "/cache/CodeQL/2.12.1-20230101"
      cached := some "2.12.1-20230101", authorization := none } "2.12.1-20230101"
    (by rfl) (by rfl)

/-! ## Tool source resolver: `getCodeQLSource` (C3) -/

inductive CodeQLSource
  | local (codeqlTarPath : String) (toolsVersion : String)
  | toolcache (codeqlFolder : String) (toolsVersion : String)
  | download (codeqlURL : String) (bundleVersion : Option String)
      (cliVersion : Option String) (toolsVersion : String)
deriving DecidableEq, Repr

/-- The caller-supplied default version pair (`CodeQLDefaultVersionInfo`). -/
structure DefaultVersion where
  cliVersion : String
  tagName : String
deriving DecidableEq, Repr

/-- `findOverridingToolsInCache` (lines 221-247): the pinned-version override,
used only when exactly one good, pinned cached version exists. -/
def findOverridingToolsInCache (env : Env) (humanReadableVersion : String) :
    Option CodeQLSource :=
  match ((env.tcFindAll.filter env.isGoodVersion).map
      (fun v => (env.tcFind v, v))).filter (fun fv => env.pinnedMarker fv.1) with
  | [fv] => some (.toolcache fv.1 fv.2)
  | _ => none

/-- `tryGetFallbackToolcacheVersion` (lines 389-398): the coerced
`0.0.0-<bundleVersion>` key for caches populated by older conventions. -/
def tryGetFallbackToolcacheVersion (cliVersion : Option String) (tagName : String) :
    Except String (Option String) :=
  match tryGetBundleVersionFromTagName tagName with
  | none => .ok none
  | some bundleVersion =>
    if bundleVersion = "" then .ok none
    else (convertToSemVer bundleVersion).map some

/-- Lines 286-292: a CLI version from the tag of an explicit URL, when the
bundle version is itself a valid semver. -/
def resolverCliFromTag : Option String → Except String (Option String)
  | none => .ok none
  | some tn =>
    if tn = "" then .ok none
    else
      match tryGetBundleVersionFromTagName tn with
      | some bv =>
        if bv ≠ "" ∧ (semverValid bv).isSome then (convertToSemVer bv).map some
        else .ok none
      | none => .ok none

/-- Lines 278-298: the `(cliVersion, tagName, url)` triple: forced shipped
defaults for `"latest"`, tag extraction for an explicit URL, the supplied
defaults otherwise. -/
def resolverVersionInfo (env : Env) (toolsInput : Option String)
    (defaultCliVersion : DefaultVersion) :
    Except String (Option String × Option String × Option String) :=
  if toolsInput = some "latest" then
    .ok (some env.defaultsCliVersion, some env.defaultsBundleVersion, none)
  else
    match toolsInput with
    | some ti =>
      match resolverCliFromTag (tryGetTagNameFromUrl ti) with
      | .error e => .error e
      | .ok cliVersion => .ok (cliVersion, tryGetTagNameFromUrl ti, some ti)
    | none => .ok (some defaultCliVersion.cliVersion, some defaultCliVersion.tagName, none)

/-- Line 299: `tagName && tryGetBundleVersionFromTagName(tagName)`. -/
def resolverBundleVersionJs (tagName : Option String) : Option String :=
  jsAndStr tagName tryGetBundleVersionFromTagName

/-- Lines 300-304: `cliVersion ?? (bundleVersion && convertToSemVer(bundleVersion))
?? tagName ?? url ?? "unknown"`, with JavaScript nullish/falsy semantics and
the possible `convertToSemVer` raise. -/
def resolverHumanReadable (cliVersion tagName url : Option String)
    (bundleVersionJs : Option String) : Except String String :=
  match cliVersion with
  | some cv => .ok cv
  | none =>
    match bundleVersionJs with
    | some bv => if bv = "" then .ok "" else convertToSemVer bv
    | none => .ok ((tagName.orElse (fun _ => url)).getD "unknown")

/-- Lines 309-337: exact CLI-version lookup, then the unique
`<cliVersion>-*` suffix match (zero or several matches fall through). -/
def resolverExactOrSuffix (env : Env) (cliVersion : Option String) : String :=
  match cliVersion with
  | some cv =>
    if cv = "" then ""
    else if env.tcFind cv ≠ "" then env.tcFind cv
    else
      if (env.tcFindAll.filter (fun v => jsStartsWith v (cv ++ "-"))).length = 1 then
        env.tcFind ((env.tcFindAll.filter (fun v => jsStartsWith v (cv ++ "-"))).headD "")
      else ""
  | none => ""

/-- Lines 338-348: the coerced `0.0.0-<bundleVersion>` fallback lookup. -/
def resolverFallbackFolder (env : Env) (cliVersion : Option String)
    (tagName : Option String) (folder1 : String) : Except String String :=
  if folder1 = "" ∧ jsTruthyOpt tagName then
    (tryGetFallbackToolcacheVersion cliVersion (tagName.getD "")).map
      (fun fb => match fb with
        | some v => if v = "" then "" else env.tcFind v
        | none => "")
  else .ok folder1

/-- `getCodeQLSource` (lines 248-383). -/
def getCodeQLSource (env : Env) (toolsInput : Option String)
    (defaultCliVersion : DefaultVersion) (apiUrl : String) (variant : GitHubVariant) :
    Except String CodeQLSource :=
  if jsTruthyOpt toolsInput ∧ toolsInput ≠ some "latest"
      ∧ ¬ jsStartsWith (toolsInput.getD "") "http" then
    .ok (.local (toolsInput.getD "") "local")
  else
    match resolverVersionInfo env toolsInput defaultCliVersion with
    | .error e => .error e
    | .ok (cliVersion, tagName, url) =>
      match resolverHumanReadable cliVersion tagName url
          (resolverBundleVersionJs tagName) with
      | .error e => .error e
      | .ok humanReadableVersion =>
        match resolverFallbackFolder env cliVersion tagName
            (resolverExactOrSuffix env cliVersion) with
        | .error e => .error e
        | .ok folder =>
          if folder ≠ "" then
            .ok (.toolcache folder (cliVersion.getD humanReadableVersion))
          else
            match (if variant ≠ .dotcom ∧ toolsInput ≠ some "latest"
                ∧ ¬ jsTruthyOpt toolsInput
              then findOverridingToolsInCache env humanReadableVersion
              else none) with
            | some r => .ok r
            | none =>
              .ok (.download
                (if jsTruthyOpt url then url.getD ""
                 else getCodeQLBundleDownloadURL env tagName apiUrl variant)
                (resolverBundleVersionJs tagName) cliVersion
                (cliVersion.getD humanReadableVersion))

example :
    getCodeQLSource envTest (some "foo/bar.tar.gz") ⟨"2.15.0", "codeql-bundle-20231114"⟩
      "https://api.example.com" .dotcom = .ok (.local "foo/bar.tar.gz" "local") := rfl

example :
    getCodeQLSource envTest none ⟨"2.15.0", "codeql-bundle-20231114"⟩
      "https://ghes.example.com" .ghes
    = .ok (.download
        "https://github.com/github/codeql-action/releases/download/codeql-bundle-20231114/codeql-bundle-linux64.tar.gz"
        (some "20231114") (some "2.15.0") "2.15.0") := rfl

/-- C3: after an exact toolcache miss for a known CLI version, a *unique*
cached `<cliVersion>-*` version is used as a toolcache source; with zero or
several such versions the resolver does not pick one, and (absent any other
cache match or pinned override) the outcome is a download source. -/
theorem c3_resolver_suffix_match :
    (∀ (env : Env) (cv tag apiUrl : String) (variant : GitHubVariant) (w folder : String),
      cv ≠ "" →
      env.tcFind cv = "" →
      env.tcFindAll.filter (fun v => jsStartsWith v (cv ++ "-")) = [w] →
      env.tcFind w = folder →
      folder ≠ "" →
      getCodeQLSource env none ⟨cv, tag⟩ apiUrl variant
        = .ok (.toolcache folder cv)) ∧
    (∀ (env : Env) (cv tag X fbv apiUrl : String) (variant : GitHubVariant),
      cv ≠ "" →
      env.tcFind cv = "" →
      (env.tcFindAll.filter (fun v => jsStartsWith v (cv ++ "-"))).length ≠ 1 →
      tag ≠ "" →
      tryGetBundleVersionFromTagName tag = some X →
      X ≠ "" →
      convertToSemVer X = .ok fbv →
      fbv ≠ "" →
      env.tcFind fbv = "" →
      (∀ v ∈ env.tcFindAll, env.isGoodVersion v = true →
        env.pinnedMarker (env.tcFind v) = false) →
      getCodeQLSource env none ⟨cv, tag⟩ apiUrl variant
        = .ok (.download (getCodeQLBundleDownloadURL env (some tag) apiUrl variant)
            (some X) (some cv) cv)) := by
  constructor
  · intro env cv tag apiUrl variant w folder hcv hmiss hfilter hfind hfol
    unfold getCodeQLSource
    rw [if_neg (by simp [jsTruthyOpt])]
    have h1 : resolverVersionInfo env none ⟨cv, tag⟩
        = .ok (some cv, some tag, none) := by
      unfold resolverVersionInfo
      rw [if_neg (by simp)]
    have h3 : resolverExactOrSuffix env (some cv) = folder := by
      unfold resolverExactOrSuffix
      dsimp only
      rw [if_neg hcv, hmiss, if_neg (by simp), hfilter]
      simp [hfind]
    have h4 : resolverFallbackFolder env (some cv) (some tag) folder = .ok folder := by
      unfold resolverFallbackFolder
      rw [if_neg (by simp [hfol])]
    simp only [h1]
    have h2 : resolverHumanReadable (some cv) (some tag) none
        (resolverBundleVersionJs (some tag)) = .ok cv := rfl
    simp only [h2, h3, h4]
    rw [if_pos hfol]
    rfl
  · intro env cv tag X fbv apiUrl variant hcv hmiss hlen htag hbv hX hconv hfbv hfmiss hpin
    unfold getCodeQLSource
    rw [if_neg (by simp [jsTruthyOpt])]
    have h1 : resolverVersionInfo env none ⟨cv, tag⟩
        = .ok (some cv, some tag, none) := by
      unfold resolverVersionInfo
      rw [if_neg (by simp)]
    have h3 : resolverExactOrSuffix env (some cv) = "" := by
      unfold resolverExactOrSuffix
      dsimp only
      rw [if_neg hcv, hmiss, if_neg (by simp), if_neg hlen]
    have h4 : resolverFallbackFolder env (some cv) (some tag) "" = .ok "" := by
      unfold resolverFallbackFolder
      rw [if_pos (by simp [jsTruthyOpt, htag])]
      unfold tryGetFallbackToolcacheVersion
      rw [show (some tag).getD "" = tag from rfl, hbv]
      dsimp only
      rw [if_neg hX, hconv]
      simp [Except.map, if_neg hfbv, hfmiss]
    have hpinned : findOverridingToolsInCache env cv = none := by
      unfold findOverridingToolsInCache
      have hnil : ((env.tcFindAll.filter env.isGoodVersion).map
          (fun v => (env.tcFind v, v))).filter (fun fv => env.pinnedMarker fv.1) = [] := by
        rw [List.filter_eq_nil_iff]
        intro a ha
        obtain ⟨v, hv, rfl⟩ := List.mem_map.mp ha
        obtain ⟨hvmem, hvgood⟩ := List.mem_filter.mp hv
        simp [hpin v hvmem hvgood]
      rw [hnil]
    have h2 : resolverHumanReadable (some cv) (some tag) none
        (resolverBundleVersionJs (some tag)) = .ok cv := rfl
    simp only [h1, h2, h3, h4]
    rw [if_neg (by simp)]
    have hif : (if variant ≠ GitHubVariant.dotcom ∧ (none : Option String) ≠ some "latest"
        ∧ ¬ jsTruthyOpt none then findOverridingToolsInCache env cv else none) = none := by
      split
      · exact hpinned
      · rfl
    simp only [hif]
    have hbvjs : resolverBundleVersionJs (some tag) = some X := by
      unfold resolverBundleVersionJs jsAndStr
      dsimp only
      rw [if_neg htag]
      exact hbv
    simp only [hbvjs]
    rfl

/-- One cached version `2.12.1-20230101`. -/
def envCacheOne : Env :=
  { envTest with
    tcFindAll := ["2.12.1-20230101"]
    tcFind := fun v =>
      if v = "2.12.1-20230101" then "/cache/CodeQL/2.12.1-20230101" else "" }

/-- Two cached versions starting with `2.12.1-`. -/
def envCacheTwo : Env :=
  { envTest with
    tcFindAll := ["2.12.1-20230101", "2.12.1-20230202"]
    tcFind := fun v =>
      if v = "2.12.1-20230101" then "/cache/CodeQL/2.12.1-20230101"
      else if v = "2.12.1-20230202" then "/cache/CodeQL/2.12.1-20230202"
      else "" }

/-- Witness for C3: the spec's own scenario — one `2.12.1-20230101` entry is
used from the toolcache; two such entries fall through to a download. -/
theorem c3_witness :
    getCodeQLSource envCacheOne none ⟨"2.12.1", "codeql-bundle-20230101"⟩
        "https://ghes.example.com" .ghes
      = .ok (.toolcache "/cache/CodeQL/2.12.1-20230101" "2.12.1") ∧
    getCodeQLSource envCacheTwo none ⟨"2.12.1", "codeql-bundle-20230101"⟩
        "https://ghes.example.com" .ghes
      = .ok (.download
          (getCodeQLBundleDownloadURL envCacheTwo (some "codeql-bundle-20230101")
            "https://ghes.example.com" .ghes)
          (some "20230101") (some "2.12.1") "2.12.1") := by
  constructor
  · exact c3_resolver_suffix_match.1 envCacheOne "2.12.1" "codeql-bundle-20230101"
      "https://ghes.example.com" .ghes "2.12.1-20230101" "/cache/CodeQL/2.12.1-20230101"
      (by decide) rfl rfl rfl (by decide)
  · exact c3_resolver_suffix_match.2 envCacheTwo "2.12.1" "codeql-bundle-20230101"
      "20230101" "0.0.0-20230101" "https://ghes.example.com" .ghes
      (by decide) rfl (by decide) (by decide) rfl (by decide) rfl (by decide) rfl
      (fun v hv hg => rfl)

end SetupCodeQL
